import Mathlib

/-!
# LWW-Element-Set graph: a shallow embedding of `graph.go`

The Go program keeps four maps from vertex / edge identities to timestamps and
decides presence by comparing the add and the remove timestamp of a key.

Modelling choices:

* `Vertex` (`type Vertex int`) is an `Int`; no arithmetic is performed on it.
* `Time` stands for the instant of a `time.Time`, counted from Go's zero
  `time.Time` (January 1, year 1, 00:00:00 UTC).  The zero value is `0`,
  earlier instants are negative, `After` is the strict order.
* A Go map is the list of its entries.  The order of the list is the order in
  which a `range` loop enumerates the map; Go leaves that order unspecified,
  so statements about "every store" quantify over every order as well.  Keys
  of a well formed map are pairwise distinct (`GoMap.WF`).
* The model enumerates a map in the same order each time a call ranges over
  it; the proofs about `Path` use only which vertices `ConnectedVertices`
  yields, not their order.
* `Now()` is an explicit argument `now` of every mutator.
* A method that mutates its receiver returns the new receiver; a method that
  also returns an `error` returns the pair of the new receiver and the error.
* The search loop of `Path` is run for a number of passes given as an
  argument; its outcome tells whether it is still running, has returned, or
  has panicked.  That the loop returns is a theorem, not part of the model.
-/

namespace LWWGraph

/-- Go: `type Vertex int`. -/
abbrev Vertex := Int

/-- Go: `type Edge struct { V1 Vertex; V2 Vertex }`. -/
structure Edge where
  V1 : Vertex
  V2 : Vertex
deriving DecidableEq, Repr

/-- Instant of a `time.Time`, relative to the zero `time.Time`. -/
abbrev Time := Int

/-- Go: `t.After(u)`, true when `t` is strictly later than `u`. -/
def After (t u : Time) : Bool := decide (u < t)

/-- A Go `map[K]time.Time`: its entries in enumeration order. -/
structure GoMap (K : Type) where
  entries : List (K × Time)
deriving DecidableEq, Repr

namespace GoMap

variable {K : Type} [DecidableEq K]

/-- Go: `make(map[K]time.Time)`. -/
def empty : GoMap K := ⟨[]⟩

/-- Lookup in a list of entries: the first entry with the key. -/
def lookup : List (K × Time) → K → Option Time
  | [], _ => none
  | (k', t) :: rest, k => if k' = k then some t else lookup rest k

/-- Go: `ts, ok := m[k]`; `none` stands for `ok == false`. -/
def get? (m : GoMap K) (k : K) : Option Time := lookup m.entries k

/-- Go: `m[k]` in an expression; a missing key yields the zero `time.Time`. -/
def get (m : GoMap K) (k : K) : Time :=
  match m.get? k with
  | some t => t
  | none => 0

/-- Assignment on a list of entries: overwrite the entry of the key, or add one. -/
def assign : List (K × Time) → K → Time → List (K × Time)
  | [], k, t => [(k, t)]
  | (k', t') :: rest, k, t =>
    if k' = k then (k', t) :: rest else (k', t') :: assign rest k t

/-- Go: `m[k] = t`. -/
def set (m : GoMap K) (k : K) (t : Time) : GoMap K := ⟨assign m.entries k t⟩

/-- The keys of a map, in enumeration order. -/
def keys (m : GoMap K) : List K := m.entries.map Prod.fst

/-- A Go map holds every key at most once. -/
def WF (m : GoMap K) : Prop := m.keys.Nodup

instance (m : GoMap K) : Decidable m.WF := by
  unfold WF; infer_instance

/-- Two maps are the same map when every key has the same lookup result. -/
def Same (m₁ m₂ : GoMap K) : Prop := ∀ k, m₁.get? k = m₂.get? k

end GoMap

/-- Go: `type LWWSet struct { vertexAdded, vertexRemoved, edgeAdded, edgeRemoved }`. -/
structure LWWSet where
  vertexAdded : GoMap Vertex
  vertexRemoved : GoMap Vertex
  edgeAdded : GoMap Edge
  edgeRemoved : GoMap Edge
deriving DecidableEq, Repr

/-- The single error kind of the guarded mutators (`fmt.Errorf(...)`). -/
inductive OpError where
  | cannotRemoveVertex (v : Vertex)
  | cannotAddEdge (v1 v2 : Vertex)
  | cannotRemoveEdge (e : Edge)
deriving DecidableEq, Repr

namespace LWWSet

/-- All four maps hold every key at most once. -/
def WF (l : LWWSet) : Prop :=
  l.vertexAdded.WF ∧ l.vertexRemoved.WF ∧ l.edgeAdded.WF ∧ l.edgeRemoved.WF

instance (l : LWWSet) : Decidable l.WF := by
  unfold WF; infer_instance

/-- Two stores hold the same four key -> timestamp maps. -/
def Same (a b : LWWSet) : Prop :=
  a.vertexAdded.Same b.vertexAdded ∧ a.vertexRemoved.Same b.vertexRemoved ∧
  a.edgeAdded.Same b.edgeAdded ∧ a.edgeRemoved.Same b.edgeRemoved

/-- Go: `New()`. -/
def New : LWWSet :=
  { vertexAdded := GoMap.empty, vertexRemoved := GoMap.empty,
    edgeAdded := GoMap.empty, edgeRemoved := GoMap.empty }

/-- Go: `AddVertex`: `l.vertexAdded[v] = Now()`. -/
def AddVertex (l : LWWSet) (v : Vertex) (now : Time) : LWWSet :=
  { l with vertexAdded := l.vertexAdded.set v now }

/-- Go: `ContainsVertex`. -/
def ContainsVertex (l : LWWSet) (v : Vertex) : Bool :=
  match l.vertexAdded.get? v with
  | none => false
  | some tsAdd =>
    match l.vertexRemoved.get? v with
    | none => true
    | some tsRem => After tsAdd tsRem

/-- Go: `ContainsEdge`. -/
def ContainsEdge (l : LWWSet) (e : Edge) : Bool :=
  if !(l.ContainsVertex e.V1 && l.ContainsVertex e.V2) then false
  else
    match l.edgeAdded.get? e with
    | none => false
    | some tsAdd =>
      match l.edgeRemoved.get? e with
      | none => true
      | some tsRem => After tsAdd tsRem

/-- The loop of `VertexInEdge` over the entries still to be enumerated: the
first entry whose edge is present decides the result. -/
def VertexInEdge.loop (l : LWWSet) (v : Vertex) : List (Edge × Time) → Bool
  | [] => false
  | (e, _) :: rest =>
    if l.ContainsEdge e then (decide (e.V1 = v) || decide (e.V2 = v))
    else VertexInEdge.loop l v rest

/-- Go: `VertexInEdge`: `for e := range l.edgeAdded { if l.ContainsEdge(e) { return ... } }`. -/
def VertexInEdge (l : LWWSet) (v : Vertex) : Bool :=
  VertexInEdge.loop l v l.edgeAdded.entries

/-- Go: `RemoveVertex`. -/
def RemoveVertex (l : LWWSet) (v : Vertex) (now : Time) : LWWSet × Option OpError :=
  if l.ContainsVertex v && !l.VertexInEdge v then
    ({ l with vertexRemoved := l.vertexRemoved.set v now }, none)
  else
    (l, some (OpError.cannotRemoveVertex v))

/-- Go: `AddEdge`. -/
def AddEdge (l : LWWSet) (v1 v2 : Vertex) (now : Time) : LWWSet × Option OpError :=
  if l.ContainsVertex v1 && l.ContainsVertex v2 then
    ({ l with edgeAdded := l.edgeAdded.set ⟨v1, v2⟩ now }, none)
  else
    (l, some (OpError.cannotAddEdge v1 v2))

/-- Go: `RemoveEdge`. -/
def RemoveEdge (l : LWWSet) (e : Edge) (now : Time) : LWWSet × Option OpError :=
  if l.ContainsEdge e then
    ({ l with edgeRemoved := l.edgeRemoved.set e now }, none)
  else
    (l, some (OpError.cannotRemoveEdge e))

/-- Go: the closure `latest` of `Merge`. -/
def latest (loc remote : Time) : Time :=
  if After loc remote then loc else remote

/-- The body shared by the closures `mergeVertex` and `mergeEdge`:
`for key, rv := range remote { local[key] = latest(local[key], rv) }`. -/
def mergeLoop {K : Type} [DecidableEq K] (loc : GoMap K) : List (K × Time) → GoMap K
  | [] => loc
  | (key, rv) :: rest => mergeLoop (loc.set key (latest (loc.get key) rv)) rest

/-- Go: the closure `mergeVertex` of `Merge`. -/
def mergeVertex (loc remote : GoMap Vertex) : GoMap Vertex :=
  mergeLoop loc remote.entries

/-- Go: the closure `mergeEdge` of `Merge`. -/
def mergeEdge (loc remote : GoMap Edge) : GoMap Edge :=
  mergeLoop loc remote.entries

/-- Go: `l.Merge(r)`; the result is the receiver after the call.  When `r` is
`l` itself the loops range over the map they write; every write then stores
`latest(t, t) = t` under a key that already holds `t`, so enumerating the
entries as they were before the call gives the same result. -/
def Merge (l r : LWWSet) : LWWSet :=
  { vertexAdded := mergeVertex l.vertexAdded r.vertexAdded,
    vertexRemoved := mergeVertex l.vertexRemoved r.vertexRemoved,
    edgeAdded := mergeEdge l.edgeAdded r.edgeAdded,
    edgeRemoved := mergeEdge l.edgeRemoved r.edgeRemoved }

/-- The loop of `ConnectedVertices`; `res` is the slice built so far. -/
def ConnectedVertices.loop (l : LWWSet) (v : Vertex) (res : List Vertex) :
    List (Edge × Time) → List Vertex
  | [] => res
  | (e, _) :: rest =>
    if l.ContainsEdge e then
      if e.V1 = v then ConnectedVertices.loop l v (res ++ [e.V2]) rest
      else if e.V2 = v then ConnectedVertices.loop l v (res ++ [e.V1]) rest
      else ConnectedVertices.loop l v res rest
    else ConnectedVertices.loop l v res rest

/-- Go: `ConnectedVertices`. -/
def ConnectedVertices (l : LWWSet) (v : Vertex) : List Vertex :=
  ConnectedVertices.loop l v [] l.edgeAdded.entries

/-- The variables of `Path` that its closures share: the path so far `res`,
the keys of the map `visited`, and the stack `conn` of frames.  A slice is the
list of its elements, the last element of the list being the top of a stack. -/
structure PathState where
  res : List Vertex
  visited : List Vertex
  conn : List (List Vertex)
deriving DecidableEq, Repr

/-- What a run of the search loop of `Path` has come to: it is still running
in some state, it has returned a slice, or it has panicked (a nil pointer
dereference or an index out of range). -/
inductive PathOutcome where
  | running (st : PathState)
  | returned (res : List Vertex)
  | panicked
deriving DecidableEq, Repr

namespace Path

/-- Go: the closure `pop`: the last element (none for an empty slice) and the
slice without it. -/
def pop (a : List Vertex) : Option Vertex × List Vertex :=
  (a.getLast?, a.dropLast)

/-- Go: the closure `popcon`. -/
def popcon (a : List (List Vertex)) : Option (List Vertex) × List (List Vertex) :=
  (a.getLast?, a.dropLast)

/-- Go: the closure `shift`: the first element and the slice without it. -/
def shift (a : List Vertex) : Option Vertex × List Vertex :=
  (a.head?, a.tail)

/-- Go: the closure `fwd`. -/
def fwd (l : LWWSet) (st : PathState) (v : Vertex) : PathState :=
  let visited := st.visited.insert v
  let tmp := (l.ConnectedVertices v).filter (fun c => decide (c ∉ visited))
  { res := st.res ++ [v], visited := visited, conn := st.conn ++ [tmp] }

/-- Go: the closure `bck`. -/
def bck (st : PathState) : PathState :=
  let visited :=
    match (pop st.res).1 with
    | some rm => st.visited.erase rm
    | none => st.visited
  { res := (pop st.res).2, visited := visited, conn := (popcon st.conn).2 }

/-- One evaluation of the loop condition `len(res) > 0` followed, when it
holds, by one pass through the loop body. -/
def step (l : LWWSet) (target : Vertex) (st : PathState) : PathOutcome :=
  if st.res.length > 0 then
    match popcon st.conn with
    | (none, _) => PathOutcome.panicked
    | (some c, conn) =>
      match shift c with
      | (some next, c') =>
        let st1 : PathState := { st with conn := conn ++ [c'] }
        let st2 := if l.ContainsVertex next then fwd l st1 next else st1
        match st2.res.getLast? with
        | none => PathOutcome.panicked
        | some last =>
          if last = target then PathOutcome.returned st2.res else PathOutcome.running st2
      | (none, _) =>
        PathOutcome.running (bck { st with conn := conn ++ [c] })
  else PathOutcome.returned st.res

/-- The search loop run for at most `n` passes from the state `st`. -/
def iterate (l : LWWSet) (target : Vertex) : Nat → PathState → PathOutcome
  | 0, st => PathOutcome.running st
  | n + 1, st =>
    match step l target st with
    | PathOutcome.running st' => iterate l target n st'
    | out => out

end Path

/-- Go: `Path`, its search loop run for at most `n` passes: `running` tells
that the loop has not returned within `n` passes. -/
def Path (l : LWWSet) (source target : Vertex) (n : Nat) : PathOutcome :=
  if !l.ContainsVertex source || !l.ContainsVertex target then PathOutcome.returned []
  else if source = target then PathOutcome.returned [source]
  else Path.iterate l target n (Path.fwd l ⟨[], [], []⟩ source)

/-- Two vertices are joined by a present edge, in either direction. -/
def Adj (l : LWWSet) (a b : Vertex) : Prop :=
  l.ContainsEdge ⟨a, b⟩ = true ∨ l.ContainsEdge ⟨b, a⟩ = true

instance (l : LWWSet) (a b : Vertex) : Decidable (l.Adj a b) := by
  unfold Adj; infer_instance

/-- The vertex `target` is reachable from `source` through present edges
traversed in either direction. -/
def Reachable (l : LWWSet) (source target : Vertex) : Prop :=
  Relation.ReflTransGen l.Adj source target

/-- Every endpoint of a recorded edge. -/
def endpoints (l : LWWSet) : List Vertex :=
  l.edgeAdded.keys.flatMap (fun e => [e.V1, e.V2])

/-- From `v`, the last vertex of a path whose vertices are `S`, a path through
vertices outside `S` leads to `t` without repeating a vertex. -/
inductive Simple (l : LWWSet) (t : Vertex) : Finset Vertex → Vertex → Prop
  | here (S : Finset Vertex) : Simple l t S t
  | step {S : Finset Vertex} {v w : Vertex} :
      l.Adj v w → w ∉ S → Simple l t (insert w S) w → Simple l t S v

end LWWSet

/-! ## Stores used as concrete inputs -/

section Examples
open LWWSet

/-- A remote store whose only record is vertex 1, added one unit before the
zero `time.Time`. -/
def earlyRemote : LWWSet :=
  { New with vertexAdded := ⟨[(1, -1)]⟩ }

/-- Vertex 1 added at -3, removed at -2 and added again at -1: present. -/
def earlyReadded : LWWSet :=
  { New with vertexAdded := ⟨[(1, -1)]⟩, vertexRemoved := ⟨[(1, -2)]⟩ }

/-- Vertex 1 added at -6, removed at -5 and added again at -2: present. -/
def earlyLocal : LWWSet :=
  { New with vertexAdded := ⟨[(1, -2)]⟩, vertexRemoved := ⟨[(1, -5)]⟩ }

/-- Vertex 1 added at -4 and removed at -3: absent. -/
def earlyRemoved : LWWSet :=
  { New with vertexAdded := ⟨[(1, -4)]⟩, vertexRemoved := ⟨[(1, -3)]⟩ }

/-- Vertices 1..4 added at time 1, edges (1,2) and (3,4) added at time 2; the
edge map enumerates (3,4) first. -/
def twoEdges : LWWSet :=
  { vertexAdded := ⟨[(1, 1), (2, 1), (3, 1), (4, 1)]⟩
    vertexRemoved := ⟨[]⟩
    edgeAdded := ⟨[(⟨3, 4⟩, 2), (⟨1, 2⟩, 2)]⟩
    edgeRemoved := ⟨[]⟩ }

/-- The store `twoEdges` with the edge map enumerating (1,2) first. -/
def twoEdgesSwapped : LWWSet :=
  { vertexAdded := ⟨[(1, 1), (2, 1), (3, 1), (4, 1)]⟩
    vertexRemoved := ⟨[]⟩
    edgeAdded := ⟨[(⟨1, 2⟩, 2), (⟨3, 4⟩, 2)]⟩
    edgeRemoved := ⟨[]⟩ }

/-- The store of `TestCantRemoveVertexIfInEdge`: vertices 1 and 2, edge (1,2). -/
def oneEdge : LWWSet :=
  { vertexAdded := ⟨[(1, 1), (2, 1)]⟩
    vertexRemoved := ⟨[]⟩
    edgeAdded := ⟨[(⟨1, 2⟩, 2)]⟩
    edgeRemoved := ⟨[]⟩ }

/-- Replica A of `TestMerge` (T1 = 1, T2 = 2, T3 = 3). -/
def replicaA : LWWSet :=
  { vertexAdded := ⟨[(1, 1), (2, 1), (3, 1)]⟩
    vertexRemoved := ⟨[(3, 3)]⟩
    edgeAdded := ⟨[(⟨1, 2⟩, 1), (⟨2, 3⟩, 1)]⟩
    edgeRemoved := ⟨[(⟨2, 3⟩, 2)]⟩ }

/-- A replica that recorded the keys of `replicaA` at other times. -/
def replicaB : LWWSet :=
  { vertexAdded := ⟨[(3, 5), (1, 0)]⟩
    vertexRemoved := ⟨[(3, 3)]⟩
    edgeAdded := ⟨[(⟨2, 3⟩, 6), (⟨4, 5⟩, 1)]⟩
    edgeRemoved := ⟨[(⟨2, 3⟩, 1)]⟩ }

/-- Vertex 1 added and removed at the same time 4. -/
def tied : LWWSet :=
  { New with vertexAdded := ⟨[(1, 4)]⟩, vertexRemoved := ⟨[(1, 4)]⟩ }

/-- The store of `TestPath`: vertices 1..4, edges (1,2), (1,4), (4,3). -/
def pathStore : LWWSet :=
  { vertexAdded := ⟨[(1, 1), (2, 1), (3, 1), (4, 1)]⟩
    vertexRemoved := ⟨[]⟩
    edgeAdded := ⟨[(⟨1, 2⟩, 1), (⟨1, 4⟩, 1), (⟨4, 3⟩, 1)]⟩
    edgeRemoved := ⟨[]⟩ }

/-- A triangle 1, 2, 3 with the edge (1,2) recorded in both orientations and a
self-loop at 1; vertex 5 is present and isolated. -/
def cycleStore : LWWSet :=
  { vertexAdded := ⟨[(1, 1), (2, 1), (3, 1), (5, 1)]⟩
    vertexRemoved := ⟨[]⟩
    edgeAdded := ⟨[(⟨1, 1⟩, 2), (⟨1, 2⟩, 2), (⟨2, 1⟩, 2), (⟨2, 3⟩, 2), (⟨3, 1⟩, 2)]⟩
    edgeRemoved := ⟨[]⟩ }

/-- Vertex 1 added at time 3 and removed at time 4. -/
def removedAt4 : LWWSet :=
  { New with vertexAdded := ⟨[(1, 3)]⟩, vertexRemoved := ⟨[(1, 4)]⟩ }

/-- Vertices 1 and 2 added at time 5, no edge recorded. -/
def liveEndpoints : LWWSet :=
  { New with vertexAdded := ⟨[(1, 5), (2, 5)]⟩ }

/-- Vertices 1 and 2 added at time 1, edge (1,2) added at time 2, vertex 1
removed at time 3: what a replica holds after merging a peer that added the
edge with a peer that removed vertex 1. -/
def danglingEdge : LWWSet :=
  { vertexAdded := ⟨[(1, 1), (2, 1)]⟩
    vertexRemoved := ⟨[(1, 3)]⟩
    edgeAdded := ⟨[(⟨1, 2⟩, 2)]⟩
    edgeRemoved := ⟨[]⟩ }

end Examples

/-! ## Timestamps of a real clock -/

/-- No timestamp of the map precedes the zero `time.Time`. -/
def GoMap.NotBeforeZero {K : Type} (m : GoMap K) : Prop := ∀ p ∈ m.entries, 0 ≤ p.2

instance {K : Type} (m : GoMap K) : Decidable m.NotBeforeZero := by
  unfold GoMap.NotBeforeZero; infer_instance

/-- No timestamp of the store precedes the zero `time.Time`; every reading of
a real clock is such a timestamp. -/
def LWWSet.NotBeforeZero (l : LWWSet) : Prop :=
  l.vertexAdded.NotBeforeZero ∧ l.vertexRemoved.NotBeforeZero ∧
  l.edgeAdded.NotBeforeZero ∧ l.edgeRemoved.NotBeforeZero

instance (l : LWWSet) : Decidable l.NotBeforeZero := by
  unfold LWWSet.NotBeforeZero; infer_instance

/-! ## Lemmas on maps -/

namespace GoMap

variable {K : Type} [DecidableEq K]

theorem lookup_assign (es : List (K × Time)) (k k' : K) (t : Time) :
    lookup (assign es k t) k' = if k = k' then some t else lookup es k' := by
  induction es with
  | nil => simp [assign, lookup]
  | cons p rest ih =>
    obtain ⟨k0, t0⟩ := p
    by_cases h0 : k0 = k
    · subst h0
      by_cases h1 : k0 = k' <;> simp [assign, lookup, h1]
    · by_cases h1 : k0 = k'
      · subst h1
        have h2 : ¬ k = k0 := fun h => h0 h.symm
        simp [assign, lookup, h0, h2]
      · simp [assign, lookup, h0, h1, ih]

theorem get?_set (m : GoMap K) (k k' : K) (t : Time) :
    (m.set k t).get? k' = if k = k' then some t else m.get? k' :=
  lookup_assign m.entries k k' t

theorem assign_same (es : List (K × Time)) (k : K) (t : Time)
    (h : lookup es k = some t) : assign es k t = es := by
  induction es with
  | nil => simp [lookup] at h
  | cons p rest ih =>
    obtain ⟨k0, t0⟩ := p
    by_cases h0 : k0 = k
    · simp [lookup, h0] at h
      simp [assign, h0, h]
    · simp [lookup, h0] at h
      simp [assign, h0, ih h]

theorem set_same (m : GoMap K) (k : K) (t : Time) (h : m.get? k = some t) :
    m.set k t = m := by
  cases m with
  | mk es => simp only [set]; rw [assign_same es k t h]

theorem lookup_eq_none_iff (es : List (K × Time)) (k : K) :
    lookup es k = none ↔ k ∉ es.map Prod.fst := by
  induction es with
  | nil => simp [lookup]
  | cons p rest ih =>
    obtain ⟨k0, t0⟩ := p
    by_cases h0 : k0 = k
    · simp [lookup, h0]
    · have h1 : ¬ k = k0 := fun h => h0 h.symm
      simp only [lookup, h0, if_false, ih, List.map_cons, List.mem_cons, h1, false_or]

theorem lookup_of_mem (es : List (K × Time)) (hnd : (es.map Prod.fst).Nodup)
    (k : K) (t : Time) (hmem : (k, t) ∈ es) : lookup es k = some t := by
  induction es with
  | nil => simp at hmem
  | cons p rest ih =>
    obtain ⟨k0, t0⟩ := p
    rw [List.map_cons, List.nodup_cons] at hnd
    rcases List.mem_cons.mp hmem with h | h
    · cases h
      simp [lookup]
    · have hk : k ∈ rest.map Prod.fst := List.mem_map.mpr ⟨(k, t), h, rfl⟩
      have h0 : ¬ k0 = k := fun e => hnd.1 (e ▸ hk)
      simp [lookup, h0, ih hnd.2 h]

theorem mem_of_lookup (es : List (K × Time)) (k : K) (t : Time)
    (h : lookup es k = some t) : (k, t) ∈ es := by
  induction es with
  | nil => simp [lookup] at h
  | cons p rest ih =>
    obtain ⟨k0, t0⟩ := p
    by_cases h0 : k0 = k
    · simp [lookup, h0] at h
      simp [h0, h]
    · simp [lookup, h0] at h
      exact List.mem_cons_of_mem _ (ih h)

theorem get_eq (m : GoMap K) (k : K) : m.get k = (m.get? k).getD 0 := by
  unfold get
  cases m.get? k <;> rfl

end GoMap

namespace LWWSet

theorem latest_eq_max (a b : Time) : latest a b = max a b := by
  unfold latest After
  by_cases h : b < a
  · simp [h, max_eq_left (le_of_lt h)]
  · simp [h, max_eq_right (not_lt.mp h)]

theorem get?_mergeLoop {K : Type} [DecidableEq K] (r : List (K × Time))
    (hnd : (r.map Prod.fst).Nodup) (loc : GoMap K) (k : K) :
    (mergeLoop loc r).get? k =
      match GoMap.lookup r k with
      | none => loc.get? k
      | some rv => some (latest (loc.get k) rv) := by
  induction r generalizing loc with
  | nil => simp [mergeLoop, GoMap.lookup]
  | cons p rest ih =>
    obtain ⟨k0, t0⟩ := p
    rw [List.map_cons, List.nodup_cons] at hnd
    simp only [mergeLoop]
    rw [ih hnd.2]
    by_cases h0 : k0 = k
    · subst h0
      have hn : GoMap.lookup rest k0 = none := (GoMap.lookup_eq_none_iff rest k0).mpr hnd.1
      simp [hn, GoMap.lookup, GoMap.get?_set]
    · have hset : ∀ t, (loc.set k0 t).get? k = loc.get? k := by
        intro t
        simp [GoMap.get?_set, h0]
      have hget : ∀ t, (loc.set k0 t).get k = loc.get k := by
        intro t
        simp only [GoMap.get, hset]
      simp only [GoMap.lookup, h0, if_false, hset, hget]

end LWWSet

/-! ## Lemmas on the merge loop -/

namespace LWWSet

theorem mergeLoop_mono {K : Type} [DecidableEq K] (r : List (K × Time)) (loc : GoMap K)
    (k : K) (a : Time) (h : loc.get? k = some a) :
    ∃ a', (mergeLoop loc r).get? k = some a' ∧ a ≤ a' := by
  induction r generalizing loc a with
  | nil => exact ⟨a, h, le_refl a⟩
  | cons p rest ih =>
    obtain ⟨k0, t0⟩ := p
    simp only [mergeLoop]
    by_cases h0 : k0 = k
    · subst h0
      have hstep : (loc.set k0 (latest (loc.get k0) t0)).get? k0
          = some (latest (loc.get k0) t0) := by simp [GoMap.get?_set]
      obtain ⟨a', ha', hle⟩ := ih _ _ hstep
      refine ⟨a', ha', le_trans ?_ hle⟩
      have hg : loc.get k0 = a := by simp [GoMap.get, h]
      rw [hg, latest_eq_max]
      exact le_max_left a t0
    · have hstep : (loc.set k0 (latest (loc.get k0) t0)).get? k = some a := by
        simp [GoMap.get?_set, h0, h]
      exact ih _ _ hstep

theorem mergeLoop_ge {K : Type} [DecidableEq K] (r : List (K × Time)) (loc : GoMap K)
    (k : K) (rv : Time) (hmem : (k, rv) ∈ r) :
    ∃ a, (mergeLoop loc r).get? k = some a ∧ rv ≤ a := by
  induction r generalizing loc with
  | nil => simp at hmem
  | cons p rest ih =>
    obtain ⟨k0, t0⟩ := p
    simp only [mergeLoop]
    rcases List.mem_cons.mp hmem with h | h
    · cases h
      have hstep : (loc.set k (latest (loc.get k) rv)).get? k
          = some (latest (loc.get k) rv) := by simp [GoMap.get?_set]
      obtain ⟨a', ha', hle⟩ := mergeLoop_mono rest _ _ _ hstep
      refine ⟨a', ha', le_trans ?_ hle⟩
      rw [latest_eq_max]
      exact le_max_right _ rv
    · exact ih _ h

theorem mergeLoop_fixed {K : Type} [DecidableEq K] (r : List (K × Time)) (loc : GoMap K)
    (h : ∀ k rv, (k, rv) ∈ r → ∃ a, loc.get? k = some a ∧ rv ≤ a) :
    mergeLoop loc r = loc := by
  induction r with
  | nil => rfl
  | cons p rest ih =>
    obtain ⟨k0, t0⟩ := p
    simp only [mergeLoop]
    obtain ⟨a, ha, hle⟩ := h k0 t0 (List.mem_cons_self _ _)
    have hg : loc.get k0 = a := by simp [GoMap.get, ha]
    have hl : latest (loc.get k0) t0 = a := by
      rw [hg, latest_eq_max]; exact max_eq_left hle
    rw [hl, GoMap.set_same loc k0 a ha]
    exact ih (fun k rv hm => h k rv (List.mem_cons_of_mem _ hm))

theorem mergeLoop_self {K : Type} [DecidableEq K] (m : GoMap K) (h : m.WF) :
    mergeLoop m m.entries = m :=
  mergeLoop_fixed m.entries m
    (fun k rv hm => ⟨rv, GoMap.lookup_of_mem m.entries h k rv hm, le_refl rv⟩)

theorem mergeLoop_twice {K : Type} [DecidableEq K] (loc remote : GoMap K) :
    mergeLoop (mergeLoop loc remote.entries) remote.entries = mergeLoop loc remote.entries :=
  mergeLoop_fixed remote.entries _ (fun k rv hm => mergeLoop_ge remote.entries loc k rv hm)

theorem mergeLoop_both {K : Type} [DecidableEq K] (loc remote : GoMap K) (h : remote.WF)
    (k : K) (a b : Time) (ha : loc.get? k = some a) (hb : remote.get? k = some b) :
    (mergeLoop loc remote.entries).get? k = some (max a b) := by
  have hb' : GoMap.lookup remote.entries k = some b := hb
  have hg : loc.get k = a := by simp [GoMap.get, ha]
  rw [get?_mergeLoop remote.entries h loc k, hb']
  simp only [hg, latest_eq_max]

end LWWSet

namespace GoMap

variable {K : Type} [DecidableEq K]

theorem keys_assign (es : List (K × Time)) (k : K) (t : Time) :
    (assign es k t).map Prod.fst =
      if k ∈ es.map Prod.fst then es.map Prod.fst else es.map Prod.fst ++ [k] := by
  induction es with
  | nil => simp [assign]
  | cons p rest ih =>
    obtain ⟨k0, t0⟩ := p
    by_cases h0 : k0 = k
    · subst h0
      simp [assign]
    · have h1 : ¬ k = k0 := fun h => h0 h.symm
      by_cases hm : k ∈ rest.map Prod.fst
      · simp only [assign, h0, if_false, List.map_cons, ih, hm, if_true, List.mem_cons,
          or_true]
      · simp only [assign, h0, if_false, List.map_cons, ih, hm, List.mem_cons, h1,
          or_self, List.cons_append]

theorem WF_set (m : GoMap K) (k : K) (t : Time) (h : m.WF) : (m.set k t).WF := by
  unfold WF keys set at *
  simp only [keys_assign]
  split
  · exact h
  · rename_i hk
    exact List.Nodup.append h (List.nodup_singleton k)
      (by
        intro x hx hx'
        rw [List.mem_singleton] at hx'
        exact hk (hx' ▸ hx))

theorem nonneg_of_get? (m : GoMap K) (hm : m.NotBeforeZero) (k : K) (t : Time)
    (h : m.get? k = some t) : 0 ≤ t :=
  hm (k, t) (mem_of_lookup m.entries k t h)

end GoMap

namespace LWWSet

theorem WF_mergeLoop {K : Type} [DecidableEq K] (r : List (K × Time)) (loc : GoMap K)
    (h : loc.WF) : (mergeLoop loc r).WF := by
  induction r generalizing loc with
  | nil => exact h
  | cons p rest ih =>
    obtain ⟨k0, t0⟩ := p
    exact ih _ (GoMap.WF_set loc k0 _ h)

/-- The lookup of a key after the merge loop, in terms of the lookups before. -/
theorem get?_merged {K : Type} [DecidableEq K] (loc remote : GoMap K) (h : remote.WF)
    (k : K) :
    (mergeLoop loc remote.entries).get? k =
      match remote.get? k with
      | none => loc.get? k
      | some rv => some (max ((loc.get? k).getD 0) rv) := by
  rw [get?_mergeLoop remote.entries h loc k, GoMap.get_eq]
  show (match GoMap.lookup remote.entries k with
      | none => loc.get? k
      | some rv => some (latest ((loc.get? k).getD 0) rv)) = _
  unfold GoMap.get?
  cases GoMap.lookup remote.entries k <;> simp [latest_eq_max]

theorem mergeLoop_comm {K : Type} [DecidableEq K] (a b : GoMap K) (ha : a.WF) (hb : b.WF)
    (na : a.NotBeforeZero) (nb : b.NotBeforeZero) :
    (mergeLoop a b.entries).Same (mergeLoop b a.entries) := by
  intro k
  rw [get?_merged a b hb k, get?_merged b a ha k]
  cases hA : a.get? k with
  | none =>
    cases hB : b.get? k with
    | none => rfl
    | some y =>
      have := GoMap.nonneg_of_get? b nb k y hB
      simp [this]
  | some x =>
    cases hB : b.get? k with
    | none =>
      have := GoMap.nonneg_of_get? a na k x hA
      simp [this]
    | some y => simp [max_comm]

theorem mergeLoop_assoc {K : Type} [DecidableEq K] (a b c : GoMap K) (hb : b.WF) (hc : c.WF)
    (na : a.NotBeforeZero) :
    (mergeLoop (mergeLoop a b.entries) c.entries).Same
      (mergeLoop a (mergeLoop b c.entries).entries) := by
  intro k
  have hbc : (mergeLoop b c.entries).WF := WF_mergeLoop c.entries b hb
  rw [get?_merged _ c hc k, get?_merged a b hb k, get?_merged a _ hbc k,
    get?_merged b c hc k]
  cases hA : a.get? k with
  | none =>
    cases hB : b.get? k <;> cases hC : c.get? k <;> simp [max_assoc]
  | some x =>
    have hx := GoMap.nonneg_of_get? a na k x hA
    cases hB : b.get? k <;> cases hC : c.get? k <;> simp [max_assoc]
    rw [← max_assoc, max_eq_left hx]

theorem ContainsVertex_congr (a b : LWWSet) (h : a.Same b) (v : Vertex) :
    a.ContainsVertex v = b.ContainsVertex v := by
  unfold ContainsVertex
  rw [h.1 v, h.2.1 v]

theorem ContainsEdge_congr (a b : LWWSet) (h : a.Same b) (e : Edge) :
    a.ContainsEdge e = b.ContainsEdge e := by
  unfold ContainsEdge
  rw [ContainsVertex_congr a b h, ContainsVertex_congr a b h, h.2.2.1 e, h.2.2.2 e]

end LWWSet

/-! ## Lemmas on presence and on ConnectedVertices -/

namespace LWWSet

theorem ContainsEdge_recorded (l : LWWSet) (e : Edge) (h : l.ContainsEdge e = true) :
    ∃ a, l.edgeAdded.get? e = some a := by
  unfold ContainsEdge at h
  cases hA : l.edgeAdded.get? e with
  | none => simp [hA] at h
  | some a => exact ⟨a, rfl⟩

theorem ContainsEdge_endpoints (l : LWWSet) (e : Edge) (h : l.ContainsEdge e = true) :
    l.ContainsVertex e.V1 = true ∧ l.ContainsVertex e.V2 = true := by
  unfold ContainsEdge at h
  cases h1 : l.ContainsVertex e.V1 <;> cases h2 : l.ContainsVertex e.V2 <;>
    simp [h1, h2] at h ⊢

theorem ContainsEdge_mem_keys (l : LWWSet) (e : Edge) (h : l.ContainsEdge e = true) :
    e ∈ l.edgeAdded.keys := by
  obtain ⟨a, ha⟩ := ContainsEdge_recorded l e h
  exact List.mem_map.mpr ⟨(e, a), GoMap.mem_of_lookup _ _ _ ha, rfl⟩

theorem ConnectedVertices_loop_eq (l : LWWSet) (v : Vertex) (es : List (Edge × Time))
    (res : List Vertex) :
    ConnectedVertices.loop l v res es =
      res ++ (((es.map Prod.fst).filter
        (fun e => l.ContainsEdge e && (decide (e.V1 = v) || decide (e.V2 = v)))).map
        (fun e => if e.V1 = v then e.V2 else e.V1)) := by
  induction es generalizing res with
  | nil => simp [ConnectedVertices.loop]
  | cons p rest ih =>
    obtain ⟨e, t⟩ := p
    simp only [ConnectedVertices.loop, List.map_cons]
    by_cases hc : l.ContainsEdge e = true
    · by_cases h1 : e.V1 = v
      · simp [hc, h1, ih, List.filter_cons]
      · by_cases h2 : e.V2 = v
        · simp [hc, h1, h2, ih, List.filter_cons]
        · simp [hc, h1, h2, ih, List.filter_cons]
    · simp [hc, ih, List.filter_cons]

theorem ConnectedVertices_eq (l : LWWSet) (v : Vertex) :
    l.ConnectedVertices v =
      ((l.edgeAdded.keys.filter
        (fun e => l.ContainsEdge e && (decide (e.V1 = v) || decide (e.V2 = v)))).map
        (fun e => if e.V1 = v then e.V2 else e.V1)) := by
  unfold ConnectedVertices GoMap.keys
  rw [ConnectedVertices_loop_eq]
  simp

theorem mem_ConnectedVertices (l : LWWSet) (v w : Vertex) :
    w ∈ l.ConnectedVertices v ↔ l.Adj v w := by
  rw [ConnectedVertices_eq]
  unfold Adj
  constructor
  · intro h
    obtain ⟨e, he, hw⟩ := List.mem_map.mp h
    obtain ⟨_, hp⟩ := List.mem_filter.mp he
    simp only [Bool.and_eq_true, Bool.or_eq_true, decide_eq_true_eq] at hp
    obtain ⟨hc, hv⟩ := hp
    by_cases h1 : e.V1 = v
    · rw [if_pos h1] at hw
      left
      have : e = ⟨v, w⟩ := by cases e; simp_all
      rw [← this]; exact hc
    · rw [if_neg h1] at hw
      have h2 : e.V2 = v := hv.resolve_left h1
      right
      have : e = ⟨w, v⟩ := by cases e; simp_all
      rw [← this]; exact hc
  · intro h
    rcases h with h | h
    · refine List.mem_map.mpr ⟨⟨v, w⟩, List.mem_filter.mpr ⟨ContainsEdge_mem_keys l _ h, ?_⟩, ?_⟩
      · simp [h]
      · simp
    · refine List.mem_map.mpr ⟨⟨w, v⟩, List.mem_filter.mpr ⟨ContainsEdge_mem_keys l _ h, ?_⟩, ?_⟩
      · simp [h]
      · by_cases hwv : w = v
        · simp [hwv]
        · simp [hwv]

theorem Adj_present (l : LWWSet) (a b : Vertex) (h : l.Adj a b) :
    l.ContainsVertex a = true ∧ l.ContainsVertex b = true := by
  rcases h with h | h
  · exact ContainsEdge_endpoints l _ h
  · exact ⟨(ContainsEdge_endpoints l _ h).2, (ContainsEdge_endpoints l _ h).1⟩

/-- Presence decided by an add and a remove timestamp survives taking, for
both, the later of the local and a remote timestamp not before the zero time. -/
theorem lww_both_present (a r a' r' : Option Int) :
    (match a with
      | none => false
      | some x => match r with
        | none => true
        | some y => After x y) = true →
    (match a' with
      | none => false
      | some x => match r' with
        | none => true
        | some y => After x y) = true →
    (∀ y, a' = some y → 0 ≤ y) → (∀ y, r' = some y → 0 ≤ y) →
    (match (match a' with
        | none => a
        | some rv => some (max (a.getD 0) rv)) with
      | none => false
      | some x => match (match r' with
          | none => r
          | some rv => some (max (r.getD 0) rv)) with
        | none => true
        | some y => After x y) = true := by
  intro h1 h2 hA hR
  unfold After Time at *
  cases a <;> cases a' <;> cases r <;> cases r' <;> simp at h1 h2 hA hR ⊢ <;> omega

theorem lww_both_absent (a r a' r' : Option Int) :
    (match a with
      | none => false
      | some x => match r with
        | none => true
        | some y => After x y) = false →
    (match a' with
      | none => false
      | some x => match r' with
        | none => true
        | some y => After x y) = false →
    (∀ y, a' = some y → 0 ≤ y) → (∀ y, r' = some y → 0 ≤ y) →
    (match (match a' with
        | none => a
        | some rv => some (max (a.getD 0) rv)) with
      | none => false
      | some x => match (match r' with
          | none => r
          | some rv => some (max (r.getD 0) rv)) with
        | none => true
        | some y => After x y) = false := by
  intro h1 h2 hA hR
  unfold After Time at *
  cases a <;> cases a' <;> cases r <;> cases r' <;> simp at h1 h2 hA hR ⊢ <;> omega

theorem ContainsVertex_Merge_present (A B : LWWSet) (hB : B.WF) (nB : B.NotBeforeZero)
    (v : Vertex) (h1 : A.ContainsVertex v = true) (h2 : B.ContainsVertex v = true) :
    (Merge A B).ContainsVertex v = true := by
  unfold ContainsVertex at *
  have e1 : (Merge A B).vertexAdded.get? v = _ := get?_merged A.vertexAdded B.vertexAdded hB.1 v
  have e2 : (Merge A B).vertexRemoved.get? v = _ :=
    get?_merged A.vertexRemoved B.vertexRemoved hB.2.1 v
  rw [e1, e2]
  exact lww_both_present _ _ _ _ h1 h2 (GoMap.nonneg_of_get? _ nB.1 v)
    (GoMap.nonneg_of_get? _ nB.2.1 v)

theorem ContainsVertex_Merge_absent (A B : LWWSet) (hB : B.WF) (nB : B.NotBeforeZero)
    (v : Vertex) (h1 : A.ContainsVertex v = false) (h2 : B.ContainsVertex v = false) :
    (Merge A B).ContainsVertex v = false := by
  unfold ContainsVertex at *
  have e1 : (Merge A B).vertexAdded.get? v = _ := get?_merged A.vertexAdded B.vertexAdded hB.1 v
  have e2 : (Merge A B).vertexRemoved.get? v = _ :=
    get?_merged A.vertexRemoved B.vertexRemoved hB.2.1 v
  rw [e1, e2]
  exact lww_both_absent _ _ _ _ h1 h2 (GoMap.nonneg_of_get? _ nB.1 v)
    (GoMap.nonneg_of_get? _ nB.2.1 v)

theorem ContainsEdge_Merge_present (A B : LWWSet) (hB : B.WF) (nB : B.NotBeforeZero)
    (e : Edge) (h1 : A.ContainsEdge e = true) (h2 : B.ContainsEdge e = true) :
    (Merge A B).ContainsEdge e = true := by
  have hA := ContainsEdge_endpoints A e h1
  have hB' := ContainsEdge_endpoints B e h2
  have v1 := ContainsVertex_Merge_present A B hB nB e.V1 hA.1 hB'.1
  have v2 := ContainsVertex_Merge_present A B hB nB e.V2 hA.2 hB'.2
  unfold ContainsEdge at *
  rw [hA.1, hA.2] at h1
  rw [hB'.1, hB'.2] at h2
  rw [v1, v2]
  simp only [Bool.and_self, Bool.not_true, Bool.false_eq_true, if_false] at h1 h2 ⊢
  have e1 : (Merge A B).edgeAdded.get? e = _ := get?_merged A.edgeAdded B.edgeAdded hB.2.2.1 e
  have e2 : (Merge A B).edgeRemoved.get? e = _ :=
    get?_merged A.edgeRemoved B.edgeRemoved hB.2.2.2 e
  rw [e1, e2]
  exact lww_both_present _ _ _ _ h1 h2 (GoMap.nonneg_of_get? _ nB.2.2.1 e)
    (GoMap.nonneg_of_get? _ nB.2.2.2 e)

end LWWSet

/-! ## Lemmas on the search loop of Path -/

namespace LWWSet
namespace Path

open PathOutcome

theorem iterate_succ (l : LWWSet) (t : Vertex) (n : Nat) (st : PathState) :
    iterate l t (n + 1) st =
      match step l t st with
      | running st' => iterate l t n st'
      | out => out := rfl

theorem iterate_running_add (l : LWWSet) (t : Vertex) (m : Nat) :
    ∀ (n : Nat) (st st' : PathState), iterate l t n st = running st' →
      iterate l t (n + m) st = iterate l t m st' := by
  intro n
  induction n with
  | zero =>
    intro st st' h
    simp only [iterate] at h
    cases h
    simp
  | succ k ih =>
    intro st st' h
    rw [Nat.succ_add, iterate_succ]
    rw [iterate_succ] at h
    cases hs : step l t st with
    | running s1 =>
      rw [hs] at h
      exact ih s1 st' h
    | returned r => rw [hs] at h; cases h
    | panicked => rw [hs] at h; cases h

theorem iterate_returned_add (l : LWWSet) (t : Vertex) (m : Nat) (r : List Vertex) :
    ∀ (n : Nat) (st : PathState), iterate l t n st = returned r →
      iterate l t (n + m) st = returned r := by
  intro n
  induction n with
  | zero =>
    intro st h
    simp only [iterate] at h
    cases h
  | succ k ih =>
    intro st h
    rw [Nat.succ_add, iterate_succ]
    rw [iterate_succ] at h
    cases hs : step l t st with
    | running s1 =>
      rw [hs] at h
      exact ih s1 h
    | returned r' => rw [hs] at h; exact h
    | panicked => rw [hs] at h; cases h

/-- The loop returns at most one slice, however many passes it is given. -/
theorem iterate_returned_unique (l : LWWSet) (t : Vertex) (st : PathState) (n m : Nat)
    (r r' : List Vertex) (h : iterate l t n st = returned r)
    (h' : iterate l t m st = returned r') : r = r' := by
  rcases Nat.le_total n m with hle | hle
  · obtain ⟨d, rfl⟩ := Nat.exists_eq_add_of_le hle
    rw [iterate_returned_add l t d r n st h] at h'
    cases h'
    rfl
  · obtain ⟨d, rfl⟩ := Nat.exists_eq_add_of_le hle
    rw [iterate_returned_add l t d r' m st h'] at h
    cases h
    rfl

theorem step_empty (l : LWWSet) (t : Vertex) (vis : List Vertex) (conn : List (List Vertex)) :
    step l t ⟨[], vis, conn⟩ = returned [] := by
  simp [step]

theorem step_exhausted (l : LWWSet) (t : Vertex) (P : List Vertex) (v : Vertex)
    (vis : List Vertex) (cs : List (List Vertex)) :
    step l t ⟨P ++ [v], vis, cs ++ [[]]⟩ = running ⟨P, vis.erase v, cs⟩ := by
  simp [step, popcon, shift, bck, pop, List.getLast?_concat]

theorem step_advance (l : LWWSet) (t : Vertex) (P : List Vertex) (v w : Vertex)
    (vis : List Vertex) (cs : List (List Vertex)) (c : List Vertex)
    (hw : l.ContainsVertex w = true) :
    step l t ⟨P ++ [v], vis, cs ++ [w :: c]⟩ =
      if w = t then returned (P ++ [v] ++ [w])
      else running ⟨P ++ [v] ++ [w], vis.insert w,
        cs ++ [c] ++ [(l.ConnectedVertices w).filter (fun x => decide (x ∉ vis.insert w))]⟩ := by
  simp [step, popcon, shift, fwd, hw, List.getLast?_concat]

end Path

theorem Adj_mem_endpoints (l : LWWSet) (a b : Vertex) (h : l.Adj a b) :
    b ∈ l.endpoints := by
  unfold endpoints
  rcases h with h | h
  · exact List.mem_flatMap.mpr ⟨⟨a, b⟩, ContainsEdge_mem_keys l _ h, by simp⟩
  · exact List.mem_flatMap.mpr ⟨⟨b, a⟩, ContainsEdge_mem_keys l _ h, by simp⟩

/-- Taking one more endpoint into the set leaves fewer endpoints outside. -/
theorem card_outside_lt (l : LWWSet) (S : Finset Vertex) (w : Vertex)
    (hw : w ∈ l.endpoints) (hS : w ∉ S) :
    (l.endpoints.toFinset \ insert w S).card < (l.endpoints.toFinset \ S).card := by
  apply Finset.card_lt_card
  rw [Finset.ssubset_iff_of_subset
    (Finset.sdiff_subset_sdiff (Finset.Subset.refl _) (Finset.subset_insert w S))]
  refine ⟨w, ?_, ?_⟩
  · simp [hw, hS]
  · simp

theorem toFinset_concat (P : List Vertex) (w : Vertex) :
    (P ++ [w]).toFinset = insert w P.toFinset := by
  ext x
  simp [or_comm]

namespace Path

open PathOutcome

/-- The search from a state whose last frame is `c`: either it returns a path
to the target that extends the path so far, or it comes back to the state
below with the frame used up, and then no vertex of `c` starts a simple path
to the target outside the path so far. -/
theorem explore (l : LWWSet) (t : Vertex) :
    ∀ (k : Nat) (c P : List Vertex) (v : Vertex) (vis : List Vertex)
      (cs : List (List Vertex)),
      (l.endpoints.toFinset \ (P ++ [v]).toFinset).card ≤ k →
      (∀ x, x ∈ vis ↔ x ∈ P ++ [v]) →
      (P ++ [v]).Nodup → (P ++ [v]).Chain' l.Adj →
      (∀ w ∈ c, l.Adj v w ∧ w ∉ P ++ [v]) →
      (∃ n r, iterate l t n ⟨P ++ [v], vis, cs ++ [c]⟩ = returned r ∧
        (P ++ [v]) <+: r ∧ r.Nodup ∧ r.Chain' l.Adj ∧ r.getLast? = some t) ∨
      (∃ n, iterate l t n ⟨P ++ [v], vis, cs ++ [c]⟩ = running ⟨P, vis.erase v, cs⟩ ∧
        ∀ w ∈ c, ¬ Simple l t (insert w (P ++ [v]).toFinset) w) := by
  intro k
  induction k using Nat.strong_induction_on with
  | _ k ihk =>
    intro c
    induction c with
    | nil =>
      intro P v vis cs _ _ _ _ _
      right
      refine ⟨1, ?_, ?_⟩
      · rw [iterate_succ, step_exhausted]
        rfl
      · intro w hw
        cases hw
    | cons w c ihc =>
      intro P v vis cs hk hvis hnd hch hc
      obtain ⟨hadj, hnot⟩ := hc w (List.mem_cons_self _ _)
      have hcv : l.ContainsVertex w = true := (Adj_present l v w hadj).2
      have hc' : ∀ x ∈ c, l.Adj v x ∧ x ∉ P ++ [v] :=
        fun x hx => hc x (List.mem_cons_of_mem _ hx)
      have hnd' : (P ++ [v] ++ [w]).Nodup := by
        rw [List.nodup_append]
        refine ⟨hnd, List.nodup_singleton w, ?_⟩
        intro x hx hx'
        rw [List.mem_singleton] at hx'
        exact hnot (hx' ▸ hx)
      have hch' : (P ++ [v] ++ [w]).Chain' l.Adj := by
        apply List.Chain'.append hch (List.chain'_singleton w)
        intro x hx y hy
        rw [List.getLast?_concat] at hx
        cases hx
        cases hy
        exact hadj
      by_cases hwt : w = t
      · left
        refine ⟨1, P ++ [v] ++ [w], ?_, List.prefix_append _ _, hnd', hch', ?_⟩
        · rw [iterate_succ, step_advance l t P v w vis cs c hcv, if_pos hwt]
        · rw [List.getLast?_concat, hwt]
      · have hstep : step l t ⟨P ++ [v], vis, cs ++ [w :: c]⟩ =
            running ⟨P ++ [v] ++ [w], vis.insert w,
              cs ++ [c] ++ [(l.ConnectedVertices w).filter
                (fun x => decide (x ∉ vis.insert w))]⟩ := by
          rw [step_advance l t P v w vis cs c hcv, if_neg hwt]
        have hwvis : w ∉ vis := fun h => hnot ((hvis w).mp h)
        have hvis' : ∀ x, x ∈ vis.insert w ↔ x ∈ P ++ [v] ++ [w] := by
          intro x
          rw [List.mem_insert_iff, hvis x]
          constructor
          · rintro (h | h)
            · exact List.mem_append_right _ (by simp [h])
            · exact List.mem_append_left _ h
          · intro h
            rcases List.mem_append.mp h with h | h
            · exact Or.inr h
            · exact Or.inl (by simpa using h)
        have hfin : (P ++ [v] ++ [w]).toFinset = insert w (P ++ [v]).toFinset :=
          toFinset_concat (P ++ [v]) w
        have hlt : (l.endpoints.toFinset \ (P ++ [v] ++ [w]).toFinset).card < k := by
          rw [hfin]
          refine lt_of_lt_of_le (card_outside_lt l _ w (Adj_mem_endpoints l v w hadj) ?_) hk
          simpa using hnot
        have hframe : ∀ x ∈ (l.ConnectedVertices w).filter
            (fun x => decide (x ∉ vis.insert w)), l.Adj w x ∧ x ∉ P ++ [v] ++ [w] := by
          intro x hx
          obtain ⟨h1, h2⟩ := List.mem_filter.mp hx
          refine ⟨(mem_ConnectedVertices l w x).mp h1, ?_⟩
          intro hmem
          have := (hvis' x).mpr hmem
          simp [this] at h2
        rcases ihk _ hlt _ (P ++ [v]) w (vis.insert w) (cs ++ [c]) (le_refl _) hvis' hnd'
          hch' hframe with ⟨n, r, hr, hpre, hrn, hrc, hrl⟩ | ⟨n, hrun, hno⟩
        · left
          refine ⟨1 + n, r, ?_, (List.prefix_append _ _).trans hpre, hrn, hrc, hrl⟩
          rw [Nat.add_comm, iterate_succ, hstep]
          exact hr
        · have hback : (vis.insert w).erase w = vis := by
            rw [List.insert_of_not_mem hwvis, List.erase_cons_head]
          rw [hback] at hrun
          have hnow : ¬ Simple l t (insert w (P ++ [v]).toFinset) w := by
            intro hS
            cases hS with
            | here => exact hwt rfl
            | step hax hxn hsx =>
              rename_i x
              have hx1 : x ∈ (l.ConnectedVertices w).filter
                  (fun x => decide (x ∉ vis.insert w)) := by
                refine List.mem_filter.mpr ⟨(mem_ConnectedVertices l w x).mpr hax, ?_⟩
                have : x ∉ vis.insert w := by
                  intro hm
                  have := (hvis' x).mp hm
                  apply hxn
                  rw [← hfin]
                  exact List.mem_toFinset.mpr this
                simp [this]
              apply hno x hx1
              rw [hfin]
              exact hsx
          rcases ihc P v vis cs hk hvis hnd hch hc' with
            ⟨n2, r, hr, hpre, hrn, hrc, hrl⟩ | ⟨n2, hrun2, hno2⟩
          · left
            refine ⟨1 + n + n2, r, ?_, hpre, hrn, hrc, hrl⟩
            have h1 : iterate l t (1 + n) ⟨P ++ [v], vis, cs ++ [w :: c]⟩ =
                running ⟨P ++ [v], vis, cs ++ [c]⟩ := by
              rw [Nat.add_comm, iterate_succ, hstep]
              exact hrun
            rw [iterate_running_add l t n2 (1 + n) _ _ h1]
            exact hr
          · right
            refine ⟨1 + n + n2, ?_, ?_⟩
            · have h1 : iterate l t (1 + n) ⟨P ++ [v], vis, cs ++ [w :: c]⟩ =
                  running ⟨P ++ [v], vis, cs ++ [c]⟩ := by
                rw [Nat.add_comm, iterate_succ, hstep]
                exact hrun
              rw [iterate_running_add l t n2 (1 + n) _ _ h1]
              exact hrun2
            · intro x hx
              rcases List.mem_cons.mp hx with rfl | hx
              · exact hnow
              · exact hno2 x hx

end Path

/-- A walk from `v` that keeps outside `S` except for `v` itself either ends
in `v` or leaves `v` a last time, to a vertex outside `S`, and then keeps
outside `S`. -/
theorem last_visit (l : LWWSet) (S : Finset Vertex) (v x : Vertex)
    (h : Relation.ReflTransGen (fun a b => l.Adj a b ∧ b ∉ S.erase v) v x) :
    x = v ∨ ∃ w, l.Adj v w ∧ w ∉ S ∧
      Relation.ReflTransGen (fun a b => l.Adj a b ∧ b ∉ S) w x := by
  induction h with
  | refl => exact Or.inl rfl
  | @tail y z _ hyz ih =>
    by_cases hz : z = v
    · exact Or.inl hz
    · right
      have hzS : z ∉ S := fun hm => hyz.2 (Finset.mem_erase.mpr ⟨hz, hm⟩)
      rcases ih with rfl | ⟨w, hw, hwS, hwy⟩
      · exact ⟨z, hyz.1, hzS, Relation.ReflTransGen.refl⟩
      · exact ⟨w, hw, hwS, Relation.ReflTransGen.tail hwy ⟨hyz.1, hzS⟩⟩

theorem Simple_of_walk (l : LWWSet) (t : Vertex) :
    ∀ (k : Nat) (S : Finset Vertex) (v : Vertex),
      (l.endpoints.toFinset \ S).card ≤ k →
      Relation.ReflTransGen (fun a b => l.Adj a b ∧ b ∉ S.erase v) v t →
      Simple l t S v := by
  intro k
  induction k using Nat.strong_induction_on with
  | _ k ih =>
    intro S v hk hwalk
    rcases last_visit l S v t hwalk with rfl | ⟨w, hw, hwS, hwt⟩
    · exact Simple.here S
    · refine Simple.step hw hwS ?_
      have hlt := lt_of_lt_of_le (card_outside_lt l S w (Adj_mem_endpoints l v w hw) hwS) hk
      apply ih _ hlt (insert w S) w (le_refl _)
      rw [Finset.erase_insert hwS]
      exact hwt

theorem Simple_of_Reachable (l : LWWSet) (s t : Vertex) (h : l.Reachable s t) :
    Simple l t {s} s := by
  apply Simple_of_walk l t _ {s} s (le_refl _)
  refine Relation.ReflTransGen.mono ?_ h
  intro a b hab
  exact ⟨hab, by simp⟩

/-- A list chained by `Adj` joins its first vertex to its last. -/
theorem Reachable_of_chain (l : LWWSet) (s t : Vertex) (r : List Vertex)
    (hpre : [s] <+: r) (hch : r.Chain' l.Adj) (hlast : r.getLast? = some t) :
    l.Reachable s t := by
  obtain ⟨tl, rfl⟩ := hpre
  simp only [List.singleton_append] at hch hlast
  apply List.relationReflTransGen_of_exists_chain tl hch
  rw [List.getLast?_eq_getLast _ (List.cons_ne_nil s tl)] at hlast
  exact Option.some.inj hlast

namespace Path

open PathOutcome

/-- The loop started by `fwd(source)` returns: either a path from `source` to
`target`, or the empty slice, and then `target` is not reachable. -/
theorem search_returns (l : LWWSet) (s t : Vertex) (hst : s ≠ t) :
    ∃ n r, iterate l t n (fwd l ⟨[], [], []⟩ s) = returned r ∧
      (([s] <+: r ∧ r.Nodup ∧ r.Chain' l.Adj ∧ r.getLast? = some t) ∨
       (r = [] ∧ ¬ l.Reachable s t)) := by
  have hinit : fwd l ⟨[], [], []⟩ s =
      ⟨[] ++ [s], [s], [] ++ [(l.ConnectedVertices s).filter (fun x => decide (x ∉ [s]))]⟩ := by
    simp [fwd]
  rw [hinit]
  have hframe : ∀ w ∈ (l.ConnectedVertices s).filter (fun x => decide (x ∉ [s])),
      l.Adj s w ∧ w ∉ [] ++ [s] := by
    intro w hw
    obtain ⟨h1, h2⟩ := List.mem_filter.mp hw
    exact ⟨(mem_ConnectedVertices l s w).mp h1, by simpa using h2⟩
  rcases explore l t _ _ [] s [s] [] (le_refl _) (by simp) (by simp) (by simp) hframe with
    ⟨n, r, hr, hpre, hrn, hrc, hrl⟩ | ⟨n, hrun, hno⟩
  · exact ⟨n, r, hr, Or.inl ⟨by simpa using hpre, hrn, hrc, hrl⟩⟩
  · refine ⟨n + 1, [], ?_, Or.inr ⟨rfl, ?_⟩⟩
    · rw [iterate_running_add l t 1 n _ _ hrun, iterate_succ, step_empty]
    · intro hreach
      have hS := Simple_of_Reachable l s t hreach
      cases hS with
      | here => exact hst rfl
      | step hax hxn hsx =>
        rename_i x
        have hx : x ∈ (l.ConnectedVertices s).filter (fun x => decide (x ∉ [s])) := by
          refine List.mem_filter.mpr ⟨(mem_ConnectedVertices l s x).mpr hax, ?_⟩
          simpa using hxn
        apply hno x hx
        simpa using hsx

theorem step_skip (l : LWWSet) (t : Vertex) (P : List Vertex) (v w : Vertex)
    (vis : List Vertex) (cs : List (List Vertex)) (c : List Vertex)
    (hw : l.ContainsVertex w = false) :
    step l t ⟨P ++ [v], vis, cs ++ [w :: c]⟩ =
      if v = t then returned (P ++ [v]) else running ⟨P ++ [v], vis, cs ++ [c]⟩ := by
  simp [step, popcon, shift, hw, List.getLast?_concat]

/-- A pass of the loop keeps `conn` as long as `res` and does not panic. -/
theorem step_lengths (l : LWWSet) (t : Vertex) (st : PathState)
    (h : st.conn.length = st.res.length) :
    step l t st ≠ panicked ∧
      ∀ st', step l t st = running st' → st'.conn.length = st'.res.length := by
  obtain ⟨res, vis, conn⟩ := st
  simp only at h
  rcases List.eq_nil_or_concat res with rfl | ⟨P, v, rfl⟩
  · simp [step]
  · rcases List.eq_nil_or_concat conn with rfl | ⟨cs, c, rfl⟩
    · simp at h
    · have hlen : cs.length = P.length := by simpa using h
      cases c with
      | nil =>
        simp only [List.concat_eq_append, step_exhausted]
        refine ⟨by simp, ?_⟩
        intro st' hst'
        cases hst'
        exact hlen
      | cons w c =>
        simp only [List.concat_eq_append]
        cases hcv : l.ContainsVertex w with
        | true =>
          rw [step_advance l t P v w vis cs c hcv]
          split
          · simp
          · refine ⟨by simp, ?_⟩
            intro st' hst'
            cases hst'
            simp [hlen]
        | false =>
          rw [step_skip l t P v w vis cs c hcv]
          split
          · simp
          · refine ⟨by simp, ?_⟩
            intro st' hst'
            cases hst'
            simp [hlen]

theorem iterate_lengths (l : LWWSet) (t : Vertex) :
    ∀ (n : Nat) (st : PathState), st.conn.length = st.res.length →
      iterate l t n st ≠ panicked ∧
      ∀ st', iterate l t n st = running st' → st'.conn.length = st'.res.length := by
  intro n
  induction n with
  | zero =>
    intro st h
    refine ⟨by simp [iterate], ?_⟩
    intro st' hst'
    simp only [iterate] at hst'
    cases hst'
    exact h
  | succ k ih =>
    intro st h
    obtain ⟨hp, hr⟩ := step_lengths l t st h
    rw [iterate_succ]
    cases hs : step l t st with
    | running s1 => exact ih s1 (hr s1 hs)
    | returned r => simp
    | panicked => exact absurd hs hp

end Path

theorem chain_present (l : LWWSet) :
    ∀ (tl : List Vertex) (a : Vertex), List.Chain l.Adj a tl →
      ∀ x ∈ tl, l.ContainsVertex x = true := by
  intro tl
  induction tl with
  | nil =>
    intro a _ x hx
    cases hx
  | cons b tl ih =>
    intro a h x hx
    rw [List.chain_cons] at h
    rcases List.mem_cons.mp hx with rfl | hx
    · exact (Adj_present l a x h.1).2
    · exact ih b h.2 x hx

/-- What `Path` returns for present and distinct `source` and `target`. -/
theorem Path_returns (l : LWWSet) (s t : Vertex) (hs : l.ContainsVertex s = true)
    (ht : l.ContainsVertex t = true) (hst : s ≠ t) :
    ∃ n r, l.Path s t n = PathOutcome.returned r ∧
      (([s] <+: r ∧ r.Nodup ∧ r.Chain' l.Adj ∧ r.getLast? = some t) ∨
       (r = [] ∧ ¬ l.Reachable s t)) := by
  obtain ⟨n, r, hr, hprop⟩ := Path.search_returns l s t hst
  refine ⟨n, r, ?_, hprop⟩
  simp only [Path, hs, ht, Bool.not_true, Bool.or_self, Bool.false_eq_true, if_false, hst]
  exact hr

theorem Path_unique (l : LWWSet) (s t : Vertex) (n m : Nat) (r r' : List Vertex)
    (h : l.Path s t n = PathOutcome.returned r) (h' : l.Path s t m = PathOutcome.returned r') :
    r = r' := by
  unfold Path at h h'
  split at h
  · split at h'
    · cases h; cases h'; rfl
    · rename_i h1 h2; exact absurd h1 h2
  · split at h'
    · rename_i h1 h2; exact absurd h2 h1
    · split at h
      · split at h'
        · cases h; cases h'; rfl
        · rename_i h1 h2; exact absurd h1 h2
      · split at h'
        · rename_i h1 h2; exact absurd h2 h1
        · exact Path.iterate_returned_unique l t _ n m r r' h h'

end LWWSet

/-! ## The claims -/

open LWWSet

/-- C1. Merge is not commutative on the code: with the receiver empty and the
remote store holding vertex 1 added at -1 and removed at -2, `A.Merge(B)`
records the zero time for both (vertex 1 absent), whereas `B.Merge(A)` keeps
-1 and -2 (vertex 1 present). -/
theorem Merge_comm_fails :
    New.WF ∧ earlyReadded.WF ∧
    (Merge New earlyReadded).vertexAdded.get? 1 = some 0 ∧
    (Merge earlyReadded New).vertexAdded.get? 1 = some (-1) ∧
    (Merge New earlyReadded).ContainsVertex 1 = false ∧
    (Merge earlyReadded New).ContainsVertex 1 = true ∧
    ¬ (Merge New earlyReadded).Same (Merge earlyReadded New) := by
  refine ⟨by decide, by decide, by decide, by decide, by decide, by decide, ?_⟩
  intro h
  have h1 := h.1 1
  revert h1
  decide

/-- C2. Merge is idempotent: merging a store into itself leaves its four maps
unchanged, and merging the same remote store a second time leaves the receiver
as the first merge left it. -/
theorem Merge_idempotent (S A B : LWWSet) (hS : S.WF) :
    Merge S S = S ∧ Merge (Merge A B) B = Merge A B := by
  obtain ⟨h1, h2, h3, h4⟩ := hS
  constructor
  · cases S with
    | mk va vr ea er =>
      simp only [Merge, mergeVertex, mergeEdge]
      rw [mergeLoop_self va h1, mergeLoop_self vr h2, mergeLoop_self ea h3,
        mergeLoop_self er h4]
  · simp only [Merge, mergeVertex, mergeEdge, mergeLoop_twice]

/-- C2 at a concrete store: `replicaA` merged into itself, and `replicaB`
merged twice into `replicaA`. -/
theorem Merge_idempotent_witness :
    replicaA.WF ∧ Merge replicaA replicaA = replicaA ∧
    Merge (Merge replicaA replicaB) replicaB = Merge replicaA replicaB :=
  ⟨by decide, Merge_idempotent replicaA replicaA replicaB (by decide)⟩

/-- C3. Merge is not associative on the code: with `earlyLocal`, the empty
store and `earlyRemoved`, merging left to right keeps vertex 1 present
(added -2, removed -3), merging the last two first records the zero time for
both maps and vertex 1 is absent. -/
theorem Merge_assoc_fails :
    earlyLocal.WF ∧ New.WF ∧ earlyRemoved.WF ∧
    (Merge (Merge earlyLocal New) earlyRemoved).vertexRemoved.get? 1 = some (-3) ∧
    (Merge earlyLocal (Merge New earlyRemoved)).vertexRemoved.get? 1 = some 0 ∧
    (Merge (Merge earlyLocal New) earlyRemoved).ContainsVertex 1 = true ∧
    (Merge earlyLocal (Merge New earlyRemoved)).ContainsVertex 1 = false := by
  refine ⟨by decide, by decide, by decide, by decide, by decide, by decide, by decide⟩

/-- C4. Merge is timestamp-maximal on shared keys: in each of the four maps, a
key with timestamp `a` in the receiver and `b` in the remote store has the
later of the two, `max a b`, after the merge. -/
theorem Merge_timestamp_maximal (loc remote : LWWSet) (hr : remote.WF) :
    (∀ k a b, loc.vertexAdded.get? k = some a → remote.vertexAdded.get? k = some b →
      (Merge loc remote).vertexAdded.get? k = some (max a b)) ∧
    (∀ k a b, loc.vertexRemoved.get? k = some a → remote.vertexRemoved.get? k = some b →
      (Merge loc remote).vertexRemoved.get? k = some (max a b)) ∧
    (∀ k a b, loc.edgeAdded.get? k = some a → remote.edgeAdded.get? k = some b →
      (Merge loc remote).edgeAdded.get? k = some (max a b)) ∧
    (∀ k a b, loc.edgeRemoved.get? k = some a → remote.edgeRemoved.get? k = some b →
      (Merge loc remote).edgeRemoved.get? k = some (max a b)) := by
  obtain ⟨h1, h2, h3, h4⟩ := hr
  refine ⟨?_, ?_, ?_, ?_⟩
  · intro k a b ha hb
    exact mergeLoop_both loc.vertexAdded remote.vertexAdded h1 k a b ha hb
  · intro k a b ha hb
    exact mergeLoop_both loc.vertexRemoved remote.vertexRemoved h2 k a b ha hb
  · intro k a b ha hb
    exact mergeLoop_both loc.edgeAdded remote.edgeAdded h3 k a b ha hb
  · intro k a b ha hb
    exact mergeLoop_both loc.edgeRemoved remote.edgeRemoved h4 k a b ha hb

/-- C4 at concrete stores: vertex 3 (added at 1 and at 5) and edge (2,3)
(removed at 2 and at 1) after merging `replicaB` into `replicaA`. -/
theorem Merge_timestamp_maximal_witness :
    replicaB.WF ∧
    (Merge replicaA replicaB).vertexAdded.get? 3 = some (max 1 5) ∧
    (Merge replicaA replicaB).edgeRemoved.get? ⟨2, 3⟩ = some (max 2 1) :=
  ⟨by decide,
   (Merge_timestamp_maximal replicaA replicaB (by decide)).1 3 1 5 (by decide) (by decide),
   (Merge_timestamp_maximal replicaA replicaB (by decide)).2.2.2 ⟨2, 3⟩ 2 1
     (by decide) (by decide)⟩

/-- C5. A key held only by the remote store does not always get the remote
timestamp: merging `earlyRemote` (vertex 1 added at -1) into the empty store
records the zero time, not -1. -/
theorem Merge_remote_only_fails :
    earlyRemote.WF ∧
    New.vertexAdded.get? 1 = none ∧
    earlyRemote.vertexAdded.get? 1 = some (-1) ∧
    (Merge New earlyRemote).vertexAdded.get? 1 = some 0 := by
  refine ⟨by decide, by decide, by decide, by decide⟩

/-- C6. `RemoveVertex` succeeds on an endpoint of a present edge: in `twoEdges`
the edge (1,2) is present, yet `RemoveVertex(1)` returns no error and records
the removal; with the other enumeration order the same happens to vertex 3. -/
theorem RemoveVertex_in_edge_succeeds :
    twoEdges.WF ∧ twoEdges.ContainsEdge ⟨1, 2⟩ = true ∧
    (twoEdges.RemoveVertex 1 5).2 = none ∧
    (twoEdges.RemoveVertex 1 5).1.vertexRemoved.get? 1 = some 5 ∧
    twoEdgesSwapped.WF ∧ twoEdgesSwapped.ContainsEdge ⟨3, 4⟩ = true ∧
    (twoEdgesSwapped.RemoveVertex 3 5).2 = none ∧
    (twoEdgesSwapped.RemoveVertex 3 5).1.vertexRemoved.get? 3 = some 5 := by
  refine ⟨by decide, by decide, by decide, by decide, by decide, by decide, by decide,
    by decide⟩

/-- C7. `VertexInEdge` misses a present edge that is not enumerated first: in
`twoEdges` the edge (1,2) is present and `VertexInEdge(1)` is false; with the
other enumeration order (3,4) is present and `VertexInEdge(3)` is false. -/
theorem VertexInEdge_misses_edge :
    twoEdges.ContainsEdge ⟨1, 2⟩ = true ∧ twoEdges.VertexInEdge 1 = false ∧
    twoEdgesSwapped.ContainsEdge ⟨3, 4⟩ = true ∧ twoEdgesSwapped.VertexInEdge 3 = false := by
  refine ⟨by decide, by decide, by decide, by decide⟩

/-- C8. Failure is atomic: when `RemoveVertex`, `AddEdge` or `RemoveEdge`
returns an error, the store after the call is the store before the call. -/
theorem failure_atomic (l : LWWSet) (v v1 v2 : Vertex) (e : Edge) (now : Time) :
    ((l.RemoveVertex v now).2 ≠ none → (l.RemoveVertex v now).1 = l) ∧
    ((l.AddEdge v1 v2 now).2 ≠ none → (l.AddEdge v1 v2 now).1 = l) ∧
    ((l.RemoveEdge e now).2 ≠ none → (l.RemoveEdge e now).1 = l) := by
  refine ⟨?_, ?_, ?_⟩
  · unfold RemoveVertex
    split <;> simp
  · unfold AddEdge
    split <;> simp
  · unfold RemoveEdge
    split <;> simp

/-- C8 at concrete calls that fail: removing vertex 1 of `oneEdge`, adding an
edge to the absent vertex 9, removing the unrecorded edge (2,1). -/
theorem failure_atomic_witness :
    (oneEdge.RemoveVertex 1 9).2 ≠ none ∧ (oneEdge.RemoveVertex 1 9).1 = oneEdge ∧
    (oneEdge.AddEdge 1 9 9).2 ≠ none ∧ (oneEdge.AddEdge 1 9 9).1 = oneEdge ∧
    (oneEdge.RemoveEdge ⟨2, 1⟩ 9).2 ≠ none ∧ (oneEdge.RemoveEdge ⟨2, 1⟩ 9).1 = oneEdge :=
  ⟨by decide, (failure_atomic oneEdge 1 1 9 ⟨2, 1⟩ 9).1 (by decide),
   by decide, (failure_atomic oneEdge 1 1 9 ⟨2, 1⟩ 9).2.1 (by decide),
   by decide, (failure_atomic oneEdge 1 1 9 ⟨2, 1⟩ 9).2.2 (by decide)⟩

/-- C9. `ContainsVertex(v)` holds exactly when `vertexAdded` has a timestamp
for `v` and `vertexRemoved` has none or an earlier one; it is false on the
empty store and false when both timestamps are equal. -/
theorem ContainsVertex_iff (l : LWWSet) (v : Vertex) :
    (l.ContainsVertex v = true ↔
      ∃ a, l.vertexAdded.get? v = some a ∧
        (l.vertexRemoved.get? v = none ∨ ∃ r, l.vertexRemoved.get? v = some r ∧ r < a)) ∧
    New.ContainsVertex v = false ∧
    (∀ t, l.vertexAdded.get? v = some t → l.vertexRemoved.get? v = some t →
      l.ContainsVertex v = false) := by
  refine ⟨?_, rfl, ?_⟩
  · unfold ContainsVertex After
    cases hA : l.vertexAdded.get? v with
    | none => simp
    | some a =>
      cases hR : l.vertexRemoved.get? v with
      | none => simp
      | some r => simp
  · intro t hA hR
    simp [ContainsVertex, After, hA, hR]

/-- C9 at the store `tied`: vertex 1 added and removed at time 4 is absent. -/
theorem ContainsVertex_iff_witness : tied.ContainsVertex 1 = false :=
  (ContainsVertex_iff tied 1).2.2 4 (by decide) (by decide)

/-- C10. `ContainsEdge(e)` holds exactly when both endpoints are present,
`edgeAdded` has a timestamp for the ordered key `e`, and `edgeRemoved` has none
or an earlier one; so a present edge has present endpoints, in every store and
in every result of `Merge`. -/
theorem ContainsEdge_iff (l r : LWWSet) (e : Edge) :
    (l.ContainsEdge e = true ↔
      l.ContainsVertex e.V1 = true ∧ l.ContainsVertex e.V2 = true ∧
      ∃ a, l.edgeAdded.get? e = some a ∧
        (l.edgeRemoved.get? e = none ∨ ∃ t, l.edgeRemoved.get? e = some t ∧ t < a)) ∧
    (l.ContainsEdge e = true →
      l.ContainsVertex e.V1 = true ∧ l.ContainsVertex e.V2 = true) ∧
    ((Merge l r).ContainsEdge e = true →
      (Merge l r).ContainsVertex e.V1 = true ∧ (Merge l r).ContainsVertex e.V2 = true) := by
  have key : ∀ s : LWWSet, s.ContainsEdge e = true ↔
      s.ContainsVertex e.V1 = true ∧ s.ContainsVertex e.V2 = true ∧
      ∃ a, s.edgeAdded.get? e = some a ∧
        (s.edgeRemoved.get? e = none ∨ ∃ t, s.edgeRemoved.get? e = some t ∧ t < a) := by
    intro s
    unfold ContainsEdge After
    cases h1 : s.ContainsVertex e.V1 <;> cases h2 : s.ContainsVertex e.V2 <;>
      cases hA : s.edgeAdded.get? e <;> cases hR : s.edgeRemoved.get? e <;> simp
  exact ⟨key l, fun h => ⟨((key l).mp h).1, ((key l).mp h).2.1⟩,
    fun h => ⟨((key _).mp h).1, ((key _).mp h).2.1⟩⟩

/-- C10 at concrete stores: edge (1,2) of `oneEdge`, and edge (1,2) after
merging `replicaB` into `replicaA`. -/
theorem ContainsEdge_iff_witness :
    (oneEdge.ContainsVertex 1 = true ∧ oneEdge.ContainsVertex 2 = true) ∧
    ((Merge replicaA replicaB).ContainsVertex 1 = true ∧
      (Merge replicaA replicaB).ContainsVertex 2 = true) :=
  ⟨(ContainsEdge_iff oneEdge New ⟨1, 2⟩).2.1 (by decide),
   (ContainsEdge_iff replicaA replicaB ⟨1, 2⟩).2.2 (by decide)⟩

/-- C11. The edge mutators are guarded exactly by presence: `AddEdge(v1, v2)`
returns an error exactly when one of the two vertices is absent, and
`RemoveEdge(e)` returns an error exactly when the edge is absent. -/
theorem edge_mutators_guarded (l : LWWSet) (v1 v2 : Vertex) (e : Edge) (now : Time) :
    ((l.AddEdge v1 v2 now).2 ≠ none ↔
      (l.ContainsVertex v1 = false ∨ l.ContainsVertex v2 = false)) ∧
    ((l.RemoveEdge e now).2 ≠ none ↔ l.ContainsEdge e = false) := by
  constructor
  · unfold AddEdge
    cases h1 : l.ContainsVertex v1 <;> cases h2 : l.ContainsVertex v2 <;> simp
  · unfold RemoveEdge
    cases h : l.ContainsEdge e <;> simp

/-- C11 at concrete calls on `oneEdge`: an edge to the absent vertex 9 is
refused, removing the unrecorded edge (2,1) is refused. -/
theorem edge_mutators_guarded_witness :
    (oneEdge.AddEdge 1 9 7).2 ≠ none ∧ (oneEdge.RemoveEdge ⟨2, 1⟩ 7).2 ≠ none :=
  ⟨(edge_mutators_guarded oneEdge 1 9 ⟨2, 1⟩ 7).1.mpr (Or.inr (by decide)),
   (edge_mutators_guarded oneEdge 1 9 ⟨2, 1⟩ 7).2.mpr (by decide)⟩

/-- C12. A mutation writes exactly one entry: `AddVertex`, and a successful
`RemoveVertex`, `AddEdge` and `RemoveEdge` at clock value `t` set the
timestamp of their key in their map to `t`, leave every other key of that map
as it was, and leave the other three maps as they were; the reversed key of an
added edge with distinct endpoints is not written.  Each guarded mutator does
succeed, with exactly that one write, whenever its guard holds. -/
theorem mutation_frame (l : LWWSet) (v v1 v2 : Vertex) (e : Edge) (t : Time) :
    ((l.AddVertex v t).vertexAdded.get? v = some t ∧
      (∀ k, k ≠ v → (l.AddVertex v t).vertexAdded.get? k = l.vertexAdded.get? k) ∧
      (l.AddVertex v t).vertexRemoved = l.vertexRemoved ∧
      (l.AddVertex v t).edgeAdded = l.edgeAdded ∧
      (l.AddVertex v t).edgeRemoved = l.edgeRemoved) ∧
    ((l.RemoveVertex v t).2 = none →
      (l.RemoveVertex v t).1.vertexRemoved.get? v = some t ∧
      (∀ k, k ≠ v → (l.RemoveVertex v t).1.vertexRemoved.get? k = l.vertexRemoved.get? k) ∧
      (l.RemoveVertex v t).1.vertexAdded = l.vertexAdded ∧
      (l.RemoveVertex v t).1.edgeAdded = l.edgeAdded ∧
      (l.RemoveVertex v t).1.edgeRemoved = l.edgeRemoved) ∧
    ((l.AddEdge v1 v2 t).2 = none →
      (l.AddEdge v1 v2 t).1.edgeAdded.get? ⟨v1, v2⟩ = some t ∧
      (∀ k, k ≠ ⟨v1, v2⟩ → (l.AddEdge v1 v2 t).1.edgeAdded.get? k = l.edgeAdded.get? k) ∧
      (v1 ≠ v2 → (l.AddEdge v1 v2 t).1.edgeAdded.get? ⟨v2, v1⟩ = l.edgeAdded.get? ⟨v2, v1⟩) ∧
      (l.AddEdge v1 v2 t).1.vertexAdded = l.vertexAdded ∧
      (l.AddEdge v1 v2 t).1.vertexRemoved = l.vertexRemoved ∧
      (l.AddEdge v1 v2 t).1.edgeRemoved = l.edgeRemoved) ∧
    ((l.RemoveEdge e t).2 = none →
      (l.RemoveEdge e t).1.edgeRemoved.get? e = some t ∧
      (∀ k, k ≠ e → (l.RemoveEdge e t).1.edgeRemoved.get? k = l.edgeRemoved.get? k) ∧
      (l.RemoveEdge e t).1.vertexAdded = l.vertexAdded ∧
      (l.RemoveEdge e t).1.vertexRemoved = l.vertexRemoved ∧
      (l.RemoveEdge e t).1.edgeAdded = l.edgeAdded) ∧
    (l.ContainsVertex v = true → l.VertexInEdge v = false →
      l.RemoveVertex v t = ({ l with vertexRemoved := l.vertexRemoved.set v t }, none)) ∧
    (l.ContainsVertex v1 = true → l.ContainsVertex v2 = true →
      l.AddEdge v1 v2 t = ({ l with edgeAdded := l.edgeAdded.set ⟨v1, v2⟩ t }, none)) ∧
    (l.ContainsEdge e = true →
      l.RemoveEdge e t = ({ l with edgeRemoved := l.edgeRemoved.set e t }, none)) := by
  have hset : ∀ {K : Type} [DecidableEq K] (m : GoMap K) (k : K),
      (m.set k t).get? k = some t ∧ ∀ k', k' ≠ k → (m.set k t).get? k' = m.get? k' := by
    intro K _ m k
    refine ⟨by simp [GoMap.get?_set], ?_⟩
    intro k' hk
    have hk' : ¬ k = k' := fun h => hk h.symm
    simp [GoMap.get?_set, hk']
  refine ⟨⟨(hset _ _).1, (hset _ _).2, rfl, rfl, rfl⟩, ?_, ?_, ?_, ?_, ?_, ?_⟩
  · unfold RemoveVertex
    split
    · intro _
      exact ⟨(hset _ _).1, (hset _ _).2, rfl, rfl, rfl⟩
    · intro h
      simp at h
  · unfold AddEdge
    split
    · intro _
      refine ⟨(hset _ _).1, (hset _ _).2, ?_, rfl, rfl, rfl⟩
      intro hne
      apply (hset l.edgeAdded ⟨v1, v2⟩).2
      intro h
      cases h
      exact hne rfl
    · intro h
      simp at h
  · unfold RemoveEdge
    split
    · intro _
      exact ⟨(hset _ _).1, (hset _ _).2, rfl, rfl, rfl⟩
    · intro h
      simp at h
  · intro h1 h2
    simp [RemoveVertex, h1, h2]
  · intro h1 h2
    simp [AddEdge, h1, h2]
  · intro h
    simp [RemoveEdge, h]

/-- C12 at concrete calls that succeed.  On `liveEndpoints` (vertices 1 and 2,
no edge): adding vertex 3 at time 9 records 9 under 3 and keeps 5 under 1;
removing vertex 1 at time 9 returns no error, records 9 under 1 and nothing
under 2; adding the edge (1,2) at time 9 returns no error, records 9 under
(1,2) and nothing under (2,1).  On `oneEdge`: removing the edge (1,2) at time 9
returns no error, records 9 under (1,2) and nothing under (2,1). -/
theorem mutation_frame_witness :
    ((liveEndpoints.AddVertex 3 9).vertexAdded.get? 3 = some 9 ∧
      (liveEndpoints.AddVertex 3 9).vertexAdded.get? 1 = some 5) ∧
    ((liveEndpoints.RemoveVertex 1 9).2 = none ∧
      (liveEndpoints.RemoveVertex 1 9).1.vertexRemoved.get? 1 = some 9 ∧
      (liveEndpoints.RemoveVertex 1 9).1.vertexRemoved.get? 2 = none ∧
      (liveEndpoints.RemoveVertex 1 9).1.vertexAdded = liveEndpoints.vertexAdded) ∧
    ((liveEndpoints.AddEdge 1 2 9).2 = none ∧
      (liveEndpoints.AddEdge 1 2 9).1.edgeAdded.get? ⟨1, 2⟩ = some 9 ∧
      (liveEndpoints.AddEdge 1 2 9).1.edgeAdded.get? ⟨2, 1⟩ = none ∧
      (liveEndpoints.AddEdge 1 2 9).1.vertexAdded = liveEndpoints.vertexAdded) ∧
    ((oneEdge.RemoveEdge ⟨1, 2⟩ 9).2 = none ∧
      (oneEdge.RemoveEdge ⟨1, 2⟩ 9).1.edgeRemoved.get? ⟨1, 2⟩ = some 9 ∧
      (oneEdge.RemoveEdge ⟨1, 2⟩ 9).1.edgeRemoved.get? ⟨2, 1⟩ = none ∧
      (oneEdge.RemoveEdge ⟨1, 2⟩ 9).1.edgeAdded = oneEdge.edgeAdded) :=
  have hA := (mutation_frame liveEndpoints 3 1 2 ⟨1, 2⟩ 9).1
  have hRV : (liveEndpoints.RemoveVertex 1 9).2 = none :=
    congrArg Prod.snd
      ((mutation_frame liveEndpoints 1 1 2 ⟨1, 2⟩ 9).2.2.2.2.1 (by decide) (by decide))
  have hRVf := (mutation_frame liveEndpoints 1 1 2 ⟨1, 2⟩ 9).2.1 hRV
  have hAE : (liveEndpoints.AddEdge 1 2 9).2 = none :=
    congrArg Prod.snd
      ((mutation_frame liveEndpoints 1 1 2 ⟨1, 2⟩ 9).2.2.2.2.2.1 (by decide) (by decide))
  have hAEf := (mutation_frame liveEndpoints 1 1 2 ⟨1, 2⟩ 9).2.2.1 hAE
  have hRE : (oneEdge.RemoveEdge ⟨1, 2⟩ 9).2 = none :=
    congrArg Prod.snd ((mutation_frame oneEdge 1 1 2 ⟨1, 2⟩ 9).2.2.2.2.2.2 (by decide))
  have hREf := (mutation_frame oneEdge 1 1 2 ⟨1, 2⟩ 9).2.2.2.1 hRE
  ⟨⟨hA.1, (hA.2.1 1 (by decide)).trans (by decide)⟩,
   ⟨hRV, hRVf.1, (hRVf.2.1 2 (by decide)).trans (by decide), hRVf.2.2.1⟩,
   ⟨hAE, hAEf.1, (hAEf.2.2.1 (by decide)).trans (by decide), hAEf.2.2.2.1⟩,
   ⟨hRE, hREf.1, (hREf.2.1 ⟨2, 1⟩ (by decide)).trans (by decide), hREf.2.2.2.2⟩⟩

/-- C13 fails as stated: vertex 1 of `removedAt4` (added at 3, removed at 4)
is still absent right after `AddVertex(1)` performed at time 4. -/
theorem AddVertex_tie_absent :
    removedAt4.WF ∧ (removedAt4.AddVertex 1 4).vertexAdded.get? 1 = some 4 ∧
    (removedAt4.AddVertex 1 4).vertexRemoved.get? 1 = some 4 ∧
    (removedAt4.AddVertex 1 4).ContainsVertex 1 = false := by
  refine ⟨by decide, by decide, by decide, by decide⟩

/-- C13, amended. Right after `AddVertex(v)` at time `t` the vertex is present
exactly when the store holds no remove timestamp for `v` or one strictly
before `t`; and whenever `v` was added at `t`, a `RemoveVertex(v)` at a time
`t' > t` that succeeds leaves `v` absent. -/
theorem AddVertex_then_contains (l m : LWWSet) (v : Vertex) (t t' : Time) :
    ((l.AddVertex v t).ContainsVertex v = true ↔
      (l.vertexRemoved.get? v = none ∨ ∃ r, l.vertexRemoved.get? v = some r ∧ r < t)) ∧
    (m.vertexAdded.get? v = some t → t < t' → (m.RemoveVertex v t').2 = none →
      (m.RemoveVertex v t').1.ContainsVertex v = false) ∧
    (t < t' → ((l.AddVertex v t).RemoveVertex v t').2 = none →
      ((l.AddVertex v t).RemoveVertex v t').1.ContainsVertex v = false) := by
  have hrem : ∀ s : LWWSet, s.vertexAdded.get? v = some t → t < t' →
      (s.RemoveVertex v t').2 = none → (s.RemoveVertex v t').1.ContainsVertex v = false := by
    intro s hs hlt
    unfold RemoveVertex
    split
    · intro _
      have hn : ¬ t' < t := not_lt.mpr (le_of_lt hlt)
      simp [ContainsVertex, hs, GoMap.get?_set, After, hn]
    · intro h
      simp at h
  refine ⟨?_, hrem m, ?_⟩
  · unfold AddVertex ContainsVertex After
    cases hR : l.vertexRemoved.get? v <;> simp [GoMap.get?_set]
  · exact hrem (l.AddVertex v t) (by simp [AddVertex, GoMap.get?_set])

/-- C13, amended, at concrete stores: vertex 1 added to the empty store at
time 2 is present, and absent again after its removal at time 3. -/
theorem AddVertex_then_contains_witness :
    (New.AddVertex 1 2).ContainsVertex 1 = true ∧
    ((New.AddVertex 1 2).RemoveVertex 1 3).1.ContainsVertex 1 = false :=
  ⟨(AddVertex_then_contains New New 1 2 3).1.mpr (Or.inl (by decide)),
   (AddVertex_then_contains New New 1 2 3).2.2 (by decide) (by decide)⟩

/-- C14. `ConnectedVertices(v)` lists, in enumeration order, the other
endpoint of every recorded edge that is present and has `v` as an endpoint,
every recorded edge being enumerated once; so `w` occurs in it exactly when
the edge (v,w) or the edge (w,v) is present, and it is empty when `v` is
absent. -/
theorem ConnectedVertices_spec (l : LWWSet) (v w : Vertex) :
    l.ConnectedVertices v =
      ((l.edgeAdded.keys.filter
        (fun e => l.ContainsEdge e && (decide (e.V1 = v) || decide (e.V2 = v)))).map
        (fun e => if e.V1 = v then e.V2 else e.V1)) ∧
    (l.edgeAdded.WF → (l.edgeAdded.keys.filter
        (fun e => l.ContainsEdge e && (decide (e.V1 = v) || decide (e.V2 = v)))).Nodup) ∧
    (w ∈ l.ConnectedVertices v ↔
      (l.ContainsEdge ⟨v, w⟩ = true ∨ l.ContainsEdge ⟨w, v⟩ = true)) ∧
    (l.ContainsVertex v = false → l.ConnectedVertices v = []) := by
  refine ⟨ConnectedVertices_eq l v, fun h => List.Nodup.filter _ h,
    mem_ConnectedVertices l v w, ?_⟩
  intro hv
  apply List.eq_nil_iff_forall_not_mem.mpr
  intro x hx
  have := (Adj_present l v x ((mem_ConnectedVertices l v x).mp hx)).1
  rw [hv] at this
  exact Bool.noConfusion this

/-- C14 at `pathStore`: vertex 1 is connected to 2 and 4, vertex 4 to 1 and 3,
and the absent vertex 9 to nothing. -/
theorem ConnectedVertices_spec_witness :
    pathStore.ConnectedVertices 1 = [2, 4] ∧ 3 ∈ pathStore.ConnectedVertices 4 ∧
    pathStore.ConnectedVertices 9 = [] :=
  ⟨(ConnectedVertices_spec pathStore 1 1).1.trans (by decide),
   (ConnectedVertices_spec pathStore 4 3).2.2.1.mpr (Or.inl (by decide)),
   (ConnectedVertices_spec pathStore 9 9).2.2.2 (by decide)⟩

/-- C15. `Path` is sound: a non-empty slice it returns starts with `source`,
ends with `target`, holds no vertex twice, holds present vertices only, and
joins every two consecutive vertices by a present edge in one of the two
directions. -/
theorem Path_sound (l : LWWSet) (source target : Vertex) (n : Nat) (r : List Vertex)
    (h : l.Path source target n = PathOutcome.returned r) (hne : r ≠ []) :
    r.head? = some source ∧ r.getLast? = some target ∧ r.Nodup ∧
    (∀ x ∈ r, l.ContainsVertex x = true) ∧ r.Chain' l.Adj := by
  by_cases hs : l.ContainsVertex source = true
  · by_cases ht : l.ContainsVertex target = true
    · by_cases hst : source = target
      · subst hst
        have : r = [source] := by
          simp only [LWWSet.Path, hs, Bool.not_true, Bool.or_self, Bool.false_eq_true, if_false,
            if_true] at h
          cases h
          rfl
        subst this
        simp [hs]
      · obtain ⟨n0, r0, hr0, hprop⟩ := Path_returns l source target hs ht hst
        have hrr : r = r0 := Path_unique l source target n n0 r r0 h hr0
        subst hrr
        rcases hprop with ⟨hpre, hnd, hch, hlast⟩ | ⟨hnil, _⟩
        · obtain ⟨tl, rfl⟩ := hpre
          refine ⟨by simp, hlast, hnd, ?_, hch⟩
          intro x hx
          simp only [List.singleton_append] at hx hch
          rcases List.mem_cons.mp hx with rfl | hx
          · exact hs
          · exact chain_present l tl source hch x hx
        · exact absurd hnil hne
    · simp only [LWWSet.Path, ht, Bool.not_false, Bool.or_true, if_true] at h
      cases h
      exact absurd rfl hne
  · simp only [LWWSet.Path, hs, Bool.not_false, Bool.true_or, if_true] at h
    cases h
    exact absurd rfl hne

/-- C15 at `pathStore`, the scenario of `TestPath`: `Path(1, 3)` returns
[1, 4, 3] within four passes of the loop. -/
theorem Path_sound_witness :
    pathStore.Path 1 3 4 = PathOutcome.returned [1, 4, 3] ∧
    ([1, 4, 3] : List Vertex).head? = some 1 ∧
    ([1, 4, 3] : List Vertex).getLast? = some 3 ∧
    ([1, 4, 3] : List Vertex).Nodup ∧
    (∀ x ∈ ([1, 4, 3] : List Vertex), pathStore.ContainsVertex x = true) ∧
    ([1, 4, 3] : List Vertex).Chain' pathStore.Adj :=
  ⟨by decide, Path_sound pathStore 1 3 4 [1, 4, 3] (by decide) (by decide)⟩

/-- C16. `Path` is complete: for present `source` and `target` the search
returns, and the slice it returns is non-empty exactly when `target` is
reachable from `source` through present edges taken in either direction. -/
theorem Path_complete (l : LWWSet) (source target : Vertex)
    (hs : l.ContainsVertex source = true) (ht : l.ContainsVertex target = true) :
    (∃ n r, l.Path source target n = PathOutcome.returned r) ∧
    (∀ n r, l.Path source target n = PathOutcome.returned r →
      (r ≠ [] ↔ l.Reachable source target)) := by
  by_cases hst : source = target
  · subst hst
    have hp : ∀ n, l.Path source source n = PathOutcome.returned [source] := by
      intro n
      simp [LWWSet.Path, hs]
    refine ⟨⟨0, [source], hp 0⟩, ?_⟩
    intro n r hr
    rw [hp n] at hr
    cases hr
    simp [Reachable, Relation.ReflTransGen.refl]
  · obtain ⟨n0, r0, hr0, hprop⟩ := Path_returns l source target hs ht hst
    refine ⟨⟨n0, r0, hr0⟩, ?_⟩
    intro n r hr
    have hrr : r = r0 := Path_unique l source target n n0 r r0 hr hr0
    subst hrr
    rcases hprop with ⟨hpre, _, hch, hlast⟩ | ⟨hnil, hno⟩
    · constructor
      · intro _
        exact Reachable_of_chain l source target r hpre hch hlast
      · intro _ hnil
        rw [hnil] at hlast
        cases hlast
    · constructor
      · intro hne
        exact absurd hnil hne
      · intro hreach
        exact absurd hreach hno

/-- C16 at concrete stores: in `pathStore` vertex 3 is reachable from 1 and
`Path(1, 3)` is non-empty; in `cycleStore` the search from 1 for the isolated
vertex 5 returns the empty slice and 5 is not reachable. -/
theorem Path_complete_witness :
    pathStore.Reachable 1 3 ∧ ¬ cycleStore.Reachable 1 5 :=
  ⟨((Path_complete pathStore 1 3 (by decide) (by decide)).2 4 [1, 4, 3] (by decide)).mp
     (by decide),
   fun h => ((Path_complete cycleStore 1 5 (by decide) (by decide)).2 17 [] (by decide)).mpr
     h rfl⟩

/-- C17. Boundary cases of `Path`: it returns the empty slice when `x` or `y`
is absent, and `[v]` for a present vertex `v` asked for a path to itself, both
before the first pass of the loop. -/
theorem Path_boundary (l : LWWSet) (x y v : Vertex) (n : Nat) :
    ((l.ContainsVertex x = false ∨ l.ContainsVertex y = false) →
      l.Path x y n = PathOutcome.returned []) ∧
    (l.ContainsVertex v = true → l.Path v v n = PathOutcome.returned [v]) := by
  constructor
  · intro h
    rcases h with h | h <;> simp [LWWSet.Path, h]
  · intro h
    simp [LWWSet.Path, h]

/-- C17 at concrete stores: `TestPathUnknownVertices` and `TestSinglePath`. -/
theorem Path_boundary_witness :
    New.Path 7 8 0 = PathOutcome.returned [] ∧
    oneEdge.Path 1 1 0 = PathOutcome.returned [1] :=
  ⟨(Path_boundary New 7 8 1 0).1 (Or.inl (by decide)),
   (Path_boundary oneEdge 1 1 1 0).2 (by decide)⟩

/-- C18. `Path` never panics: after any number of passes the loop has not
panicked, and while it is running the stack `conn` is as long as `res`, so
`popcon` yields a frame whenever `res` is non-empty. -/
theorem Path_never_panics (l : LWWSet) (source target : Vertex) (n : Nat) :
    l.Path source target n ≠ PathOutcome.panicked ∧
    ∀ st, l.Path source target n = PathOutcome.running st →
      st.conn.length = st.res.length ∧
      (st.res ≠ [] → (LWWSet.Path.popcon st.conn).1 ≠ none) := by
  have hlen : ∀ st : PathState, st.conn.length = st.res.length →
      (st.res ≠ [] → (LWWSet.Path.popcon st.conn).1 ≠ none) := by
    intro st h hne
    have hc : st.conn ≠ [] := by
      intro hnil
      rw [hnil] at h
      exact hne (List.length_eq_zero.mp h.symm)
    simp [LWWSet.Path.popcon, List.getLast?_eq_none_iff, hc]
  unfold LWWSet.Path
  split
  · simp
  · split
    · simp
    · obtain ⟨hp, hr⟩ := LWWSet.Path.iterate_lengths l target n (LWWSet.Path.fwd l ⟨[], [], []⟩ source)
        (by simp [LWWSet.Path.fwd])
      exact ⟨hp, fun st hst => ⟨hr st hst, hlen st (hr st hst)⟩⟩

/-- C18 at `cycleStore`: after five passes of the search from 1 for 5 the loop
is running with two vertices on the path and two frames. -/
theorem Path_never_panics_witness :
    cycleStore.Path 1 5 5 = PathOutcome.running ⟨[1, 2], [2, 1], [[3], [3]]⟩ ∧
    ([[3], [3]] : List (List Vertex)).length = ([1, 2] : List Vertex).length :=
  ⟨by decide,
   ((Path_never_panics cycleStore 1 5 5).2 ⟨[1, 2], [2, 1], [[3], [3]]⟩ (by decide)).1⟩

/-- C19. `Path` terminates: for every store and all vertices there is a number
of passes after which the loop has returned, and it stays returned with the
same slice for every larger number of passes. -/
theorem Path_terminates (l : LWWSet) (source target : Vertex) :
    ∃ n r, ∀ m, n ≤ m → l.Path source target m = PathOutcome.returned r := by
  by_cases hs : l.ContainsVertex source = true
  · by_cases ht : l.ContainsVertex target = true
    · by_cases hst : source = target
      · subst hst
        exact ⟨0, [source], fun m _ => by simp [LWWSet.Path, hs]⟩
      · obtain ⟨n, r, hr, _⟩ := LWWSet.Path.search_returns l source target hst
        refine ⟨n, r, ?_⟩
        intro m hm
        obtain ⟨d, rfl⟩ := Nat.exists_eq_add_of_le hm
        simp only [LWWSet.Path, hs, ht, Bool.not_true, Bool.or_self, Bool.false_eq_true, if_false,
          hst]
        exact LWWSet.Path.iterate_returned_add l target d r n _ hr
    · exact ⟨0, [], fun m _ => by simp [LWWSet.Path, ht]⟩
  · exact ⟨0, [], fun m _ => by simp [LWWSet.Path, hs]⟩

/-- C19 at `cycleStore`, which has a cycle, a self-loop and an edge recorded
in both orientations: the search from 1 for the isolated vertex 5 is running
after 13 passes and has returned after 14. -/
theorem Path_terminates_witness :
    (∃ n r, ∀ m, n ≤ m → cycleStore.Path 1 5 m = PathOutcome.returned r) ∧
    cycleStore.Path 1 5 13 = PathOutcome.running ⟨[], [], []⟩ ∧
    cycleStore.Path 1 5 14 = PathOutcome.returned [] :=
  ⟨Path_terminates cycleStore 1 5, by decide, by decide⟩

/-- C20 fails as stated: the edge (1,2) is absent in `liveEndpoints` (no edge
recorded) and absent in `danglingEdge` (vertex 1 removed), and present after
merging `danglingEdge` into `liveEndpoints`, which brings the edge record
together with the later add of vertex 1. -/
theorem Merge_absent_edge_appears :
    liveEndpoints.WF ∧ danglingEdge.WF ∧
    liveEndpoints.NotBeforeZero ∧ danglingEdge.NotBeforeZero ∧
    liveEndpoints.ContainsEdge ⟨1, 2⟩ = false ∧
    danglingEdge.ContainsEdge ⟨1, 2⟩ = false ∧
    (Merge liveEndpoints danglingEdge).ContainsEdge ⟨1, 2⟩ = true := by
  refine ⟨by decide, by decide, by decide, by decide, by decide, by decide, by decide⟩

/-- C20, amended. When the remote store is well formed and holds no timestamp
before the zero time: a vertex present in both stores is present after the
merge, a vertex absent in both is absent after the merge, and an edge present
in both is present after the merge. -/
theorem Merge_agreed_presence (A B : LWWSet) (hB : B.WF) (nB : B.NotBeforeZero)
    (v : Vertex) (e : Edge) :
    (A.ContainsVertex v = true → B.ContainsVertex v = true →
      (Merge A B).ContainsVertex v = true) ∧
    (A.ContainsVertex v = false → B.ContainsVertex v = false →
      (Merge A B).ContainsVertex v = false) ∧
    (A.ContainsEdge e = true → B.ContainsEdge e = true →
      (Merge A B).ContainsEdge e = true) :=
  ⟨ContainsVertex_Merge_present A B hB nB v, ContainsVertex_Merge_absent A B hB nB v,
    ContainsEdge_Merge_present A B hB nB e⟩

/-- C20, amended, at `replicaA` and `pathStore`: vertex 1 and edge (1,2) are
present in both and after the merge, vertex 9 is absent in both and after. -/
theorem Merge_agreed_presence_witness :
    (Merge replicaA pathStore).ContainsVertex 1 = true ∧
    (Merge replicaA pathStore).ContainsVertex 9 = false ∧
    (Merge replicaA pathStore).ContainsEdge ⟨1, 2⟩ = true :=
  ⟨(Merge_agreed_presence replicaA pathStore (by decide) (by decide) 1 ⟨1, 2⟩).1
     (by decide) (by decide),
   (Merge_agreed_presence replicaA pathStore (by decide) (by decide) 9 ⟨1, 2⟩).2.1
     (by decide) (by decide),
   (Merge_agreed_presence replicaA pathStore (by decide) (by decide) 1 ⟨1, 2⟩).2.2
     (by decide) (by decide)⟩

/-! ## Further properties of Merge and VertexInEdge -/

/-- What `Merge` leaves under a key of `vertexAdded` (the other three maps
behave alike): a key the remote store lacks keeps the receiver's lookup, a
key the remote store has gets the later of the remote timestamp and the
receiver's, the zero time standing in when the receiver lacks the key. -/
theorem Merge_lookup (loc remote : LWWSet) (hr : remote.WF) (v : Vertex) (e : Edge) :
    (Merge loc remote).vertexAdded.get? v =
      (match remote.vertexAdded.get? v with
       | none => loc.vertexAdded.get? v
       | some rv => some (max ((loc.vertexAdded.get? v).getD 0) rv)) ∧
    (Merge loc remote).vertexRemoved.get? v =
      (match remote.vertexRemoved.get? v with
       | none => loc.vertexRemoved.get? v
       | some rv => some (max ((loc.vertexRemoved.get? v).getD 0) rv)) ∧
    (Merge loc remote).edgeAdded.get? e =
      (match remote.edgeAdded.get? e with
       | none => loc.edgeAdded.get? e
       | some rv => some (max ((loc.edgeAdded.get? e).getD 0) rv)) ∧
    (Merge loc remote).edgeRemoved.get? e =
      (match remote.edgeRemoved.get? e with
       | none => loc.edgeRemoved.get? e
       | some rv => some (max ((loc.edgeRemoved.get? e).getD 0) rv)) :=
  ⟨get?_merged _ _ hr.1 v, get?_merged _ _ hr.2.1 v, get?_merged _ _ hr.2.2.1 e,
    get?_merged _ _ hr.2.2.2 e⟩

/-- The lookup rule at `replicaA` and `replicaB`, vertex 3 and edge (4,5). -/
theorem Merge_lookup_witness :
    (Merge replicaA replicaB).vertexAdded.get? 3 = some 5 ∧
    (Merge replicaA replicaB).edgeAdded.get? ⟨4, 5⟩ = some 1 :=
  ⟨(Merge_lookup replicaA replicaB (by decide) 3 ⟨4, 5⟩).1.trans (by decide),
   (Merge_lookup replicaA replicaB (by decide) 3 ⟨4, 5⟩).2.2.1.trans (by decide)⟩

/-- Merge is commutative on stores without a timestamp before the zero time:
both orders give the same four maps and the same `ContainsVertex` and
`ContainsEdge` results. -/
theorem Merge_comm_of_notBeforeZero (A B : LWWSet) (hA : A.WF) (hB : B.WF)
    (nA : A.NotBeforeZero) (nB : B.NotBeforeZero) :
    (Merge A B).Same (Merge B A) ∧
    (∀ v, (Merge A B).ContainsVertex v = (Merge B A).ContainsVertex v) ∧
    (∀ e, (Merge A B).ContainsEdge e = (Merge B A).ContainsEdge e) := by
  have hs : (Merge A B).Same (Merge B A) :=
    ⟨mergeLoop_comm _ _ hA.1 hB.1 nA.1 nB.1, mergeLoop_comm _ _ hA.2.1 hB.2.1 nA.2.1 nB.2.1,
      mergeLoop_comm _ _ hA.2.2.1 hB.2.2.1 nA.2.2.1 nB.2.2.1,
      mergeLoop_comm _ _ hA.2.2.2 hB.2.2.2 nA.2.2.2 nB.2.2.2⟩
  exact ⟨hs, ContainsVertex_congr _ _ hs, ContainsEdge_congr _ _ hs⟩

/-- Commutativity at `replicaA` and `replicaB`. -/
theorem Merge_comm_of_notBeforeZero_witness :
    (Merge replicaA replicaB).Same (Merge replicaB replicaA) :=
  (Merge_comm_of_notBeforeZero replicaA replicaB (by decide) (by decide) (by decide)
    (by decide)).1

/-- Merge is associative when the receiver holds no timestamp before the zero
time: merging `B` then `C` into `A` gives the same four maps as merging `C`
into `B` and the result into `A`. -/
theorem Merge_assoc_of_notBeforeZero (A B C : LWWSet) (hB : B.WF) (hC : C.WF)
    (nA : A.NotBeforeZero) :
    (Merge (Merge A B) C).Same (Merge A (Merge B C)) :=
  ⟨mergeLoop_assoc _ _ _ hB.1 hC.1 nA.1, mergeLoop_assoc _ _ _ hB.2.1 hC.2.1 nA.2.1,
    mergeLoop_assoc _ _ _ hB.2.2.1 hC.2.2.1 nA.2.2.1,
    mergeLoop_assoc _ _ _ hB.2.2.2 hC.2.2.2 nA.2.2.2⟩

/-- Associativity at `replicaA`, `replicaB` and `oneEdge`. -/
theorem Merge_assoc_of_notBeforeZero_witness :
    (Merge (Merge replicaA replicaB) oneEdge).Same (Merge replicaA (Merge replicaB oneEdge)) :=
  Merge_assoc_of_notBeforeZero replicaA replicaB oneEdge (by decide) (by decide) (by decide)

/-- Merge keeps the receiver well formed: no key is recorded twice. -/
theorem Merge_WF (A B : LWWSet) (hA : A.WF) : (Merge A B).WF :=
  ⟨WF_mergeLoop _ _ hA.1, WF_mergeLoop _ _ hA.2.1, WF_mergeLoop _ _ hA.2.2.1,
    WF_mergeLoop _ _ hA.2.2.2⟩

/-- Well-formedness of the merge of `replicaB` into `replicaA`. -/
theorem Merge_WF_witness : (Merge replicaA replicaB).WF :=
  Merge_WF replicaA replicaB (by decide)

/-- When `VertexInEdge(v)` is true, some present edge has `v` as an endpoint. -/
theorem VertexInEdge_sound (l : LWWSet) (v : Vertex) (h : l.VertexInEdge v = true) :
    ∃ e, l.ContainsEdge e = true ∧ (e.V1 = v ∨ e.V2 = v) := by
  unfold VertexInEdge at h
  generalize l.edgeAdded.entries = es at h
  induction es with
  | nil => simp [VertexInEdge.loop] at h
  | cons p rest ih =>
    obtain ⟨e, t⟩ := p
    simp only [VertexInEdge.loop] at h
    by_cases hc : l.ContainsEdge e = true
    · rw [if_pos hc] at h
      refine ⟨e, hc, ?_⟩
      simpa using h
    · rw [if_neg hc] at h
      exact ih h

/-- Soundness of `VertexInEdge` at `oneEdge` and vertex 2. -/
theorem VertexInEdge_sound_witness :
    ∃ e, oneEdge.ContainsEdge e = true ∧ (e.V1 = 2 ∨ e.V2 = 2) :=
  VertexInEdge_sound oneEdge 2 (by decide)

end LWWGraph
